import Mathlib

/-!
# Verification of the gated workflow navigation engine (`WorkflowStepper`)

A shallow embedding of the state-computation engine and the navigation
controller from `src/components/GridFilter.jsx`.  JavaScript objects used
as status maps are modelled as association lists with JS-object update
semantics (assignment to an existing key rewrites it in place, assignment
to a fresh key appends); JS `Set`s of strings are modelled as duplicate-free
lists; predicates that may throw are modelled as `Except Unit Bool`-valued
functions; `Date.now()` is an `Int` supplied by the caller.
-/

namespace WorkflowStepper

/-- The closed set of step statuses (the string constants used by the code). -/
inductive Status where
  | locked
  | next
  | loading
  | available
  | active
  | completed
deriving DecidableEq, Repr

/-- A configured step, as seen by the engine: its `id` and the two optional
predicates.  `validate`/`isLoading` may throw, hence `Except Unit Bool`;
display-only fields (`title`, `icon`, `component`, `subItems`) are opaque to
the engine and omitted. -/
structure Step (γ : Type) where
  id : String
  validate : Option (γ → Except Unit Bool)
  isLoading : Option (γ → Except Unit Bool)

/-- JS `safeTry(fn, fallback)`: run the callback, return `fallback` if it throws. -/
def safeTry (r : Except Unit Bool) (fallback : Bool) : Bool :=
  match r with
  | .ok b => b
  | .error _ => fallback

/-- JS `callValidate(step, ctx)`: `false` when no validator is configured,
otherwise the validator's result with throws treated as `false`. -/
def callValidate {γ : Type} (step : Step γ) (ctx : γ) : Bool :=
  match step.validate with
  | none => false
  | some f => safeTry (f ctx) false

/-- JS `callIsLoading(step, ctx)`: same fault isolation for the loading predicate. -/
def callIsLoading {γ : Type} (step : Step γ) (ctx : γ) : Bool :=
  match step.isLoading with
  | none => false
  | some f => safeTry (f ctx) false

/-- The `states` object of the `useMemo`: a JS object from step id to status. -/
abbrev StateMap := List (String × Status)

/-- Reading `states[k]` (JS property access: `none` plays `undefined`). -/
def getKey (m : StateMap) (k : String) : Option Status :=
  (m.find? (fun p => p.1 == k)).map (·.2)

/-- Writing `states[k] = v` (JS object assignment: an existing key is rewritten
in place keeping its position, a fresh key is appended in insertion order). -/
def setKey : StateMap → String → Status → StateMap
  | [], k, v => [(k, v)]
  | p :: rest, k, v => if p.1 = k then (k, v) :: rest else p :: setKey rest k v

/-- One element of the `computed` precomputation array:
`{ id: step.id, isValid, isLoading }`. -/
structure Computed where
  id : String
  isValid : Bool
  isLoading : Bool
deriving DecidableEq, Repr

/-- Precomputation `computed = steps.map(step => ({id, isValid: callValidate(..), isLoading: callIsLoading(..)}))`. -/
def computeStep {γ : Type} (step : Step γ) (ctx : γ) : Computed :=
  { id := step.id, isValid := callValidate step ctx, isLoading := callIsLoading step ctx }

/-- JS `Array.findIndex` by id: the first index whose id matches, `-1` if none. -/
def findIndexId : List String → String → Int
  | [], _ => -1
  | id :: rest, target =>
    if id = target then 0
    else
      let r := findIndexId rest target
      if r = -1 then -1 else r + 1

/-- First forEach of the status computation: mark every valid-or-manually-completed
step `available` and record `firstNonAvailableIndex` (initially `-1`). -/
def markAvailableLoop (mc : List String) :
    List Computed → Nat → StateMap → Int → StateMap × Int
  | [], _, states, fna => (states, fna)
  | c :: rest, index, states, fna =>
    if c.isValid || c.id ∈ mc then
      markAvailableLoop mc rest (index + 1) (setKey states c.id .available) fna
    else if fna = -1 then
      markAvailableLoop mc rest (index + 1) states (index : Int)
    else
      markAvailableLoop mc rest (index + 1) states fna

/-- Second forEach (run only when `firstNonAvailableIndex !== -1`): skip steps that
already have a state; the frontier step becomes `loading`/`next`, every later
still-unset step becomes `locked`.  The source iterates `steps` but reads only
`step.id` and `computed[index].isLoading`; here the loop runs over `computed`,
which carries exactly those fields in the same order. -/
def lockLoop : List Computed → Nat → Int → StateMap → StateMap
  | [], _, _, states => states
  | c :: rest, index, fna, states =>
    if (getKey states c.id).isSome then
      lockLoop rest (index + 1) fna states
    else if (index : Int) = fna then
      lockLoop rest (index + 1) fna
        (setKey states c.id (if c.isLoading then .loading else .next))
    else if (index : Int) > fna then
      lockLoop rest (index + 1) fna (setKey states c.id .locked)
    else
      lockLoop rest (index + 1) fna states

/-- Third forEach: retag as `completed` every step before `currentIdx` whose
status is currently `available`.  The source iterates `steps` reading only
`step.id`; the loop runs over the id list. -/
def completedLoop : List String → Nat → Int → StateMap → StateMap
  | [], _, _, states => states
  | id :: rest, index, currentIdx, states =>
    if (index : Int) < currentIdx ∧ getKey states id = some .available then
      completedLoop rest (index + 1) currentIdx (setKey states id .completed)
    else
      completedLoop rest (index + 1) currentIdx states

/-- The status map before the final active override: stages 1–3 of the `useMemo`. -/
def preOverrideStates (computedList : List Computed) (mc : List String)
    (currentStepId : String) : StateMap :=
  let r := markAvailableLoop mc computedList 0 [] (-1)
  let states := if r.2 ≠ -1 then lockLoop computedList 0 r.2 r.1 else r.1
  let currentIdx := findIndexId (computedList.map (·.id)) currentStepId
  completedLoop (computedList.map (·.id)) 0 currentIdx states

/-- Final block of the `useMemo`: a defined, non-`locked` current status is
overridden to `active`; an undefined current status defaults to `locked`. -/
def activeOverride (states : StateMap) (currentStepId : String) : StateMap :=
  match getKey states currentStepId with
  | some curState =>
    if curState ≠ .locked then setKey states currentStepId .active else states
  | none => setKey states currentStepId .locked

/-- The whole `stepStates` computation. -/
def stepStatesCompute {γ : Type} (steps : List (Step γ)) (ctx : γ)
    (mc : List String) (currentStepId : String) : StateMap :=
  let computedList := steps.map (fun s => computeStep s ctx)
  activeOverride (preOverrideStates computedList mc currentStepId) currentStepId

/-- The `progress` useMemo: `(completedCount + activeBonus) / steps.length * 100`,
with `activeBonus = 0.5` when the current step's status is `active` or `loading`. -/
def progressCompute (stepStates : StateMap) (currentStepId : String)
    (numSteps : Nat) : ℚ :=
  let completedCount := (stepStates.filter (fun p => p.2 == Status.completed)).length
  let activeState := getKey stepStates currentStepId
  let activeBonus : ℚ :=
    if activeState = some .active ∨ activeState = some .loading then 1/2 else 0
  ((completedCount : ℚ) + activeBonus) / (numSteps : ℚ) * 100

/-- Query `getStepState(stepId)`: the latest entry, defaulting to `locked` if absent. -/
def getStepState (stepStates : StateMap) (stepId : String) : Status :=
  (getKey stepStates stepId).getD .locked

/-! ## Navigation controller session state and operations -/

/-- The mutable session owned by the controller: `currentStepId`,
`manuallyCompleted` (a JS `Set`, here a duplicate-free list),
`lastNavAtRef.current`, and the `pendingAdvance` flag. -/
structure Session where
  currentStepId : String
  manuallyCompleted : List String
  lastNavAt : Int
  pendingAdvance : Bool
deriving DecidableEq, Repr

/-- Observable outbound notifications (the `onStepChange` callback). -/
inductive Event where
  | stepChanged (stepId : String)
deriving DecidableEq, Repr

def NAV_COOLDOWN_MS : Int := 250

/-- Debounce check `canNavigateNow()`: `Date.now() - lastNavAtRef.current >= NAV_COOLDOWN_MS`,
with the current wall clock passed in as `now`. -/
def canNavigateNow (s : Session) (now : Int) : Bool :=
  decide (NAV_COOLDOWN_MS ≤ now - s.lastNavAt)

/-- JS `new Set(prev).add(x)`: append `x` when absent (JS sets hold no duplicates). -/
def setAdd (s : List String) (x : String) : List String :=
  if x ∈ s then s else s ++ [x]

/-- The session after the component first mounts with a non-empty step list:
`currentStepId = steps[0].id`, empty completed set, `lastNavAtRef = 0`. -/
def initSession (firstId : String) : Session :=
  { currentStepId := firstId, manuallyCompleted := [], lastNavAt := 0,
    pendingAdvance := false }

/-- Operation `navigateToStep(stepId)`: look the id up in the computed map; return
untouched on `locked` or inside the cooldown; otherwise stamp the clock, move,
and notify.  The two `Date.now()` reads inside one synchronous handler are
modelled as the single instant `now`. -/
def navigateToStep (stepStates : StateMap) (s : Session) (now : Int)
    (stepId : String) : Session × List Event :=
  let state := getKey stepStates stepId
  if state = some .locked then (s, [])
  else if canNavigateNow s now = false then (s, [])
  else ({ s with lastNavAt := now, currentStepId := stepId },
        [Event.stepChanged stepId])

/-- Handler `handleStepClick(stepId, state)`: the click handler receives the rendered
step's status as an argument (the render reads `stepStates[step.id]`). -/
def handleStepClick (s : Session) (now : Int) (stepId : String)
    (state : Option Status) : Session × List Event :=
  if state = some .locked then (s, [])
  else if canNavigateNow s now = false then (s, [])
  else ({ s with lastNavAt := now, currentStepId := stepId },
        [Event.stepChanged stepId])

/-- Operation `completeStep(data)`: add the current id to `manuallyCompleted`, request the
deferred advance, and — when the current id sits at the last index — notify with
the current id at once.  Forwarding `data` to `onContextUpdate` is fault-isolated
and leaves the session untouched, so it needs no model here. -/
def completeStep (stepIds : List String) (s : Session) : Session × List Event :=
  let currentIndex := findIndexId stepIds s.currentStepId
  let s' := { s with manuallyCompleted := setAdd s.manuallyCompleted s.currentStepId,
                     pendingAdvance := true }
  if currentIndex = (stepIds.length : Int) - 1 then
    (s', [Event.stepChanged s.currentStepId])
  else
    (s', [])

/-- Operation `resetToStep(stepId)`: a no-op on an unknown id; otherwise drop the id and
everything after it from `manuallyCompleted`, move there and notify. -/
def resetToStep (stepIds : List String) (s : Session) (stepId : String) :
    Session × List Event :=
  let stepIndex := findIndexId stepIds stepId
  if stepIndex < 0 then (s, [])
  else
    let idsToReset := stepIds.drop stepIndex.toNat
    let mc := s.manuallyCompleted.filter (fun id => decide (id ∉ idsToReset))
    ({ s with manuallyCompleted := mc, currentStepId := stepId },
     [Event.stepChanged stepId])

/-- The predicate of the deferred-advance `steps.find`: skip indices at or before
`currentIndex`; succeed at the first step whose status is defined and not
`locked`. -/
def findNextUnlocked (stepStates : StateMap) (currentIndex : Int) :
    List String → Nat → Option String
  | [], _ => none
  | id :: rest, index =>
    if (index : Int) ≤ currentIndex then
      findNextUnlocked stepStates currentIndex rest (index + 1)
    else
      match getKey stepStates id with
      | some st =>
        if st ≠ .locked then some id
        else findNextUnlocked stepStates currentIndex rest (index + 1)
      | none => findNextUnlocked stepStates currentIndex rest (index + 1)

/-- The deferred-navigation effect: nothing unless `pendingAdvance`; otherwise
move to the first later non-locked step (stamping the clock and notifying) and
clear the flag unconditionally. -/
def deferredAdvance (stepIds : List String) (stepStates : StateMap)
    (s : Session) (now : Int) : Session × List Event :=
  if s.pendingAdvance = false then (s, [])
  else
    let currentIndex := findIndexId stepIds s.currentStepId
    match findNextUnlocked stepStates currentIndex stepIds 0 with
    | some nextId =>
      ({ s with lastNavAt := now, currentStepId := nextId, pendingAdvance := false },
       [Event.stepChanged nextId])
    | none => ({ s with pendingAdvance := false }, [])

/-! ## The public operation alphabet, for reachability statements

Each operation carries the context snapshot in force when its handler ran
(the external provider may change it at any time) and, where the handler reads
the clock, the `Date.now()` instant. `click` comes from a rendered button, so
it targets a configured index and carries that step's computed status;
`navigateTo` is the hook-exposed API and accepts any string. `settle` is the
re-render that runs the deferred-advance effect against the freshly recomputed
status map. -/
inductive Op (γ : Type) where
  | navigateTo (ctx : γ) (now : Int) (stepId : String)
  | click (ctx : γ) (now : Int) (stepIndex : Nat)
  | complete
  | reset (stepId : String)
  | settle (ctx : γ) (now : Int)
  | updateCtx

/-- Apply one public operation to a session, recomputing the status map from
the session and the operation's context snapshot exactly as the memoised
`stepStates` would be at that render. -/
def applyOp {γ : Type} (steps : List (Step γ)) (s : Session) : Op γ → Session × List Event
  | .navigateTo ctx now stepId =>
    navigateToStep (stepStatesCompute steps ctx s.manuallyCompleted s.currentStepId)
      s now stepId
  | .click ctx now stepIndex =>
    match (steps.map (·.id)).get? stepIndex with
    | some id =>
      handleStepClick s now id
        (getKey (stepStatesCompute steps ctx s.manuallyCompleted s.currentStepId) id)
    | none => (s, [])
  | .complete => completeStep (steps.map (·.id)) s
  | .reset stepId => resetToStep (steps.map (·.id)) s stepId
  | .settle ctx now =>
    deferredAdvance (steps.map (·.id))
      (stepStatesCompute steps ctx s.manuallyCompleted s.currentStepId) s now
  | .updateCtx => (s, [])

/-- Run a list of public operations from a session (events discarded). -/
def runOps {γ : Type} (steps : List (Step γ)) (s : Session) : List (Op γ) → Session
  | [] => s
  | op :: rest => runOps steps (applyOp steps s op).1 rest

/-! ## Analysis-side helper definitions -/

/-- The key list of a status map (JS `Object.keys`, in insertion order). -/
def keys (m : StateMap) : List String := m.map (·.1)

/-- A step is *available* when its validator (fault-isolated) holds or it was
manually completed (step 2 of the engine algorithm, on precomputed data). -/
def availC (mc : List String) (c : Computed) : Bool :=
  c.isValid || decide (c.id ∈ mc)

/-- The index of the first non-available step, if any (the frontier of step 3). -/
def firstNonAvail (mc : List String) : List Computed → Option Nat
  | [] => none
  | c :: rest =>
    if availC mc c then (firstNonAvail mc rest).map (· + 1) else some 0

/-- The ids of the available steps, in order. -/
def availIds (mc : List String) (cs : List Computed) : List String :=
  (cs.filter (fun c => availC mc c)).map (·.id)

/-- The session-state invariant of §3: the current step id is configured and
the manually-completed set only holds configured ids. -/
def goodSession (ids : List String) (s : Session) : Prop :=
  s.currentStepId ∈ ids ∧ ∀ x ∈ s.manuallyCompleted, x ∈ ids

/-- An operation whose navigation target (when it has a free-form one) is a
configured step id. -/
def opConfigured {γ : Type} (ids : List String) : Op γ → Prop
  | .navigateTo _ _ stepId => stepId ∈ ids
  | _ => True

/-! ## The three-step reference scenario of §8

`A` validator always true; `B` validator always false with a loader that is
always false; `C` validator always false. -/

def exampleStepA : Step Unit :=
  { id := "A", validate := some (fun _ => .ok true), isLoading := none }

def exampleStepB : Step Unit :=
  { id := "B", validate := some (fun _ => .ok false),
    isLoading := some (fun _ => .ok false) }

def exampleStepC : Step Unit :=
  { id := "C", validate := some (fun _ => .ok false), isLoading := none }

def exampleSteps : List (Step Unit) := [exampleStepA, exampleStepB, exampleStepC]

/-- A variant list whose third step has a validator that is always true while
the first two fail: it exhibits an `available` step after a `locked` one. -/
def exampleStepAInvalid : Step Unit :=
  { id := "A", validate := some (fun _ => .ok false), isLoading := none }

def exampleStepCValid : Step Unit :=
  { id := "C", validate := some (fun _ => .ok true), isLoading := none }

def exampleStepsGap : List (Step Unit) :=
  [exampleStepAInvalid, exampleStepB, exampleStepCValid]

/-- A fourth, always-invalid step. -/
def exampleStepD : Step Unit :=
  { id := "D", validate := some (fun _ => .ok false), isLoading := none }

/-- Four steps where only the third one validates: the second is locked while
the third stays available, and the fourth is locked again. -/
def exampleStepsGap4 : List (Step Unit) :=
  [exampleStepAInvalid, exampleStepB, exampleStepCValid, exampleStepD]

/-! ## Basic lemmas about the JS-object model -/

theorem getKey_nil (k : String) : getKey [] k = none := rfl

theorem getKey_cons (p : String × Status) (m : StateMap) (k : String) :
    getKey (p :: m) k = if p.1 = k then some p.2 else getKey m k := by
  by_cases h : p.1 = k <;> simp [getKey, List.find?_cons, h]

theorem keys_nil : keys [] = [] := rfl

theorem keys_cons (p : String × Status) (m : StateMap) :
    keys (p :: m) = p.1 :: keys m := rfl

theorem getKey_isSome_iff_mem_keys (m : StateMap) (k : String) :
    (getKey m k).isSome = true ↔ k ∈ keys m := by
  induction m with
  | nil => simp [getKey_nil, keys_nil]
  | cons p rest ih =>
    rw [getKey_cons, keys_cons, List.mem_cons]
    by_cases h : p.1 = k
    · simp [h]
    · rw [if_neg h]
      constructor
      · exact fun hm => Or.inr (ih.mp hm)
      · rintro (hh | hm)
        · exact absurd hh.symm h
        · exact ih.mpr hm

theorem getKey_eq_none_iff_not_mem_keys (m : StateMap) (k : String) :
    getKey m k = none ↔ k ∉ keys m := by
  rw [← getKey_isSome_iff_mem_keys]
  cases getKey m k <;> simp

theorem getKey_setKey_self (m : StateMap) (k : String) (v : Status) :
    getKey (setKey m k v) k = some v := by
  induction m with
  | nil => simp [setKey, getKey_cons]
  | cons p rest ih =>
    by_cases h : p.1 = k
    · simp [setKey, h, getKey_cons]
    · simp only [setKey, if_neg h]
      rw [getKey_cons, if_neg h]
      exact ih

theorem getKey_setKey_ne (m : StateMap) (k x : String) (v : Status)
    (h : x ≠ k) : getKey (setKey m k v) x = getKey m x := by
  induction m with
  | nil =>
    simp only [setKey]
    rw [getKey_cons, if_neg (fun hh : k = x => h hh.symm)]
  | cons p rest ih =>
    by_cases hp : p.1 = k
    · rw [show setKey (p :: rest) k v = (k, v) :: rest from by
        simp only [setKey, if_pos hp]]
      rw [getKey_cons, getKey_cons, if_neg (fun hh : k = x => h hh.symm),
        if_neg (fun hh : p.1 = x => h (hp ▸ hh).symm)]
    · rw [show setKey (p :: rest) k v = p :: setKey rest k v from by
        simp only [setKey, if_neg hp]]
      rw [getKey_cons, getKey_cons, ih]

theorem mem_setKey (m : StateMap) (k : String) (v : Status)
    (p : String × Status) (hp : p ∈ setKey m k v) : p = (k, v) ∨ p ∈ m := by
  induction m with
  | nil => simpa [setKey] using hp
  | cons q rest ih =>
    by_cases hq : q.1 = k
    · rw [show setKey (q :: rest) k v = (k, v) :: rest from by
        simp only [setKey, if_pos hq]] at hp
      rcases List.mem_cons.mp hp with h | h
      · exact Or.inl h
      · exact Or.inr (List.mem_cons_of_mem q h)
    · rw [show setKey (q :: rest) k v = q :: setKey rest k v from by
        simp only [setKey, if_neg hq]] at hp
      rcases List.mem_cons.mp hp with h | h
      · exact Or.inr (by rw [h]; exact List.mem_cons_self q rest)
      · rcases ih h with h | h
        · exact Or.inl h
        · exact Or.inr (List.mem_cons_of_mem q h)

theorem keys_setKey (m : StateMap) (k : String) (v : Status) :
    (k ∈ keys m ∧ keys (setKey m k v) = keys m) ∨
      (k ∉ keys m ∧ keys (setKey m k v) = keys m ++ [k]) := by
  induction m with
  | nil => right; simp [setKey, keys_nil, keys_cons]
  | cons p rest ih =>
    by_cases hp : p.1 = k
    · left
      refine ⟨by rw [keys_cons, hp]; exact List.mem_cons_self k (keys rest), ?_⟩
      rw [show setKey (p :: rest) k v = (k, v) :: rest from by
        simp only [setKey, if_pos hp]]
      rw [keys_cons, keys_cons, hp]
    · have hstep : setKey (p :: rest) k v = p :: setKey rest k v := by
        simp only [setKey, if_neg hp]
      rcases ih with ⟨hmem, heq⟩ | ⟨hmem, heq⟩
      · left
        refine ⟨by rw [keys_cons]; exact List.mem_cons_of_mem _ hmem, ?_⟩
        rw [hstep, keys_cons, keys_cons, heq]
      · right
        constructor
        · rw [keys_cons, List.mem_cons]
          rintro (hh | hh)
          · exact hp hh.symm
          · exact hmem hh
        · rw [hstep, keys_cons, keys_cons, heq, List.cons_append]

theorem nodup_keys_setKey (m : StateMap) (k : String) (v : Status)
    (h : (keys m).Nodup) : (keys (setKey m k v)).Nodup := by
  rcases keys_setKey m k v with ⟨_, heq⟩ | ⟨hmem, heq⟩
  · rwa [heq]
  · rw [heq, List.nodup_append]
    refine ⟨h, List.nodup_singleton k, ?_⟩
    intro a ha hk
    rw [List.mem_singleton] at hk
    exact hmem (hk ▸ ha)
/-! ## Stage 1: marking available steps and finding the frontier -/

theorem markAvailableLoop_cons (mc : List String) (c : Computed)
    (rest : List Computed) (index : Nat) (states : StateMap) (fna : Int) :
    markAvailableLoop mc (c :: rest) index states fna =
      if availC mc c = true then
        markAvailableLoop mc rest (index + 1) (setKey states c.id .available) fna
      else if fna = -1 then
        markAvailableLoop mc rest (index + 1) states (index : Int)
      else
        markAvailableLoop mc rest (index + 1) states fna := rfl

theorem availIds_cons_pos (mc : List String) (c : Computed)
    (rest : List Computed) (hc : availC mc c = true) :
    availIds mc (c :: rest) = c.id :: availIds mc rest := by
  simp [availIds, List.filter_cons, hc]

theorem availIds_cons_neg (mc : List String) (c : Computed)
    (rest : List Computed) (hc : availC mc c = false) :
    availIds mc (c :: rest) = availIds mc rest := by
  simp [availIds, List.filter_cons, hc]

theorem markAvailableLoop_getKey (mc : List String) (cs : List Computed)
    (idx : Nat) (states : StateMap) (fna : Int) (x : String) :
    getKey (markAvailableLoop mc cs idx states fna).1 x =
      if x ∈ availIds mc cs then some .available else getKey states x := by
  induction cs generalizing idx states fna with
  | nil => simp [markAvailableLoop, availIds]
  | cons c rest ih =>
    rw [markAvailableLoop_cons]
    by_cases hc : availC mc c = true
    · rw [if_pos hc, ih, availIds_cons_pos mc c rest hc]
      by_cases hx : x ∈ availIds mc rest
      · rw [if_pos hx, if_pos (List.mem_cons_of_mem _ hx)]
      · rw [if_neg hx]
        by_cases hxc : x = c.id
        · rw [if_pos (by rw [hxc]; exact List.mem_cons_self _ _), hxc,
            getKey_setKey_self]
        · have hnm : x ∉ c.id :: availIds mc rest := by
            rw [List.mem_cons]
            rintro (h | h)
            · exact hxc h
            · exact hx h
          rw [if_neg hnm, getKey_setKey_ne _ _ _ _ hxc]
    · rw [if_neg hc,
        availIds_cons_neg mc c rest (Bool.eq_false_iff.mpr hc)]
      by_cases hf : fna = -1
      · rw [if_pos hf, ih]
      · rw [if_neg hf, ih]

theorem markAvailableLoop_fna (mc : List String) (cs : List Computed)
    (idx : Nat) (states : StateMap) (fna : Int) :
    (markAvailableLoop mc cs idx states fna).2 =
      if fna = -1 then
        (firstNonAvail mc cs).elim (-1) (fun j => (idx : Int) + j)
      else fna := by
  induction cs generalizing idx fna states with
  | nil =>
    by_cases hf : fna = -1 <;> simp [markAvailableLoop, firstNonAvail, hf]
  | cons c rest ih =>
    rw [markAvailableLoop_cons]
    by_cases hc : availC mc c = true
    · rw [if_pos hc, ih]
      have hfa : firstNonAvail mc (c :: rest) =
          (firstNonAvail mc rest).map (· + 1) := by
        simp [firstNonAvail, hc]
      rw [hfa]
      by_cases hf : fna = -1
      · rw [if_pos hf, if_pos hf]
        cases hrest : firstNonAvail mc rest with
        | none => simp
        | some j =>
          simp only [Option.map_some', Option.elim_some]
          push_cast
          ring
      · rw [if_neg hf, if_neg hf]
    · rw [if_neg hc]
      have hfa : firstNonAvail mc (c :: rest) = some 0 := by
        simp [firstNonAvail, hc]
      have hidx : ¬ ((idx : Int) = -1) := by omega
      by_cases hf : fna = -1
      · rw [if_pos hf, ih, if_neg hidx, if_pos hf, hfa]
        simp
      · rw [if_neg hf, ih, if_neg hf, if_neg hf]

theorem firstNonAvail_eq_none_iff (mc : List String) (cs : List Computed) :
    firstNonAvail mc cs = none ↔ ∀ c ∈ cs, availC mc c = true := by
  induction cs with
  | nil => simp [firstNonAvail]
  | cons c rest ih =>
    by_cases hc : availC mc c = true <;>
      simp [firstNonAvail, hc, ih, Option.map_eq_none']

theorem firstNonAvail_spec (mc : List String) (cs : List Computed) (j : Nat)
    (h : firstNonAvail mc cs = some j) :
    ∃ c, cs[j]? = some c ∧ availC mc c = false := by
  induction cs generalizing j with
  | nil => simp [firstNonAvail] at h
  | cons c rest ih =>
    by_cases hc : availC mc c = true
    · rw [show firstNonAvail mc (c :: rest) =
          (firstNonAvail mc rest).map (· + 1) from by simp [firstNonAvail, hc]] at h
      cases hrest : firstNonAvail mc rest with
      | none => rw [hrest] at h; simp at h
      | some j0 =>
        rw [hrest] at h
        simp only [Option.map_some', Option.some_inj] at h
        obtain ⟨c0, hc0, hav⟩ := ih j0 hrest
        exact ⟨c0, by rw [← h]; simpa using hc0, hav⟩
    · rw [show firstNonAvail mc (c :: rest) = some 0 from by
        simp [firstNonAvail, hc]] at h
      obtain rfl : (0 : Nat) = j := by simpa using h
      exact ⟨c, by simp, Bool.eq_false_iff.mpr hc⟩

theorem firstNonAvail_min (mc : List String) (cs : List Computed) (j : Nat)
    (h : firstNonAvail mc cs = some j) (i : Nat) (hi : i < j) :
    ∀ c, cs[i]? = some c → availC mc c = true := by
  induction cs generalizing i j with
  | nil => simp [firstNonAvail] at h
  | cons c rest ih =>
    by_cases hc : availC mc c = true
    · rw [show firstNonAvail mc (c :: rest) =
          (firstNonAvail mc rest).map (· + 1) from by simp [firstNonAvail, hc]] at h
      cases hrest : firstNonAvail mc rest with
      | none => rw [hrest] at h; simp at h
      | some j0 =>
        rw [hrest] at h
        simp only [Option.map_some', Option.some_inj] at h
        cases i with
        | zero =>
          intro c0 hc0
          simp only [List.getElem?_cons_zero, Option.some_inj] at hc0
          rwa [← hc0]
        | succ i0 =>
          intro c0 hc0
          exact ih j0 hrest i0 (by omega) c0 (by simpa using hc0)
    · rw [show firstNonAvail mc (c :: rest) = some 0 from by
        simp [firstNonAvail, hc]] at h
      obtain rfl : (0 : Nat) = j := by simpa using h
      exact absurd hi (Nat.not_lt_zero i)

theorem firstNonAvail_le_of_not_avail (mc : List String) (cs : List Computed)
    (k : Nat) (c : Computed) (hk : cs[k]? = some c)
    (hc : availC mc c = false) : ∃ j, j ≤ k ∧ firstNonAvail mc cs = some j := by
  induction cs generalizing k with
  | nil => simp at hk
  | cons c0 rest ih =>
    by_cases hc0 : availC mc c0 = true
    · cases k with
      | zero =>
        simp only [List.getElem?_cons_zero, Option.some_inj] at hk
        rw [hk] at hc0
        rw [hc0] at hc
        cases hc
      | succ k0 =>
        obtain ⟨j0, hj0, hfa⟩ := ih k0 (by simpa using hk)
        refine ⟨j0 + 1, by omega, ?_⟩
        rw [show firstNonAvail mc (c0 :: rest) =
            (firstNonAvail mc rest).map (· + 1) from by simp [firstNonAvail, hc0],
          hfa]
        rfl
    · exact ⟨0, Nat.zero_le k, by simp [firstNonAvail, hc0]⟩

/-! ## Stage 2: the frontier and the locked tail -/

theorem lockLoop_cons (c : Computed) (rest : List Computed) (index : Nat)
    (fna : Int) (states : StateMap) :
    lockLoop (c :: rest) index fna states =
      if (getKey states c.id).isSome then
        lockLoop rest (index + 1) fna states
      else if (index : Int) = fna then
        lockLoop rest (index + 1) fna
          (setKey states c.id (if c.isLoading then .loading else .next))
      else if (index : Int) > fna then
        lockLoop rest (index + 1) fna (setKey states c.id .locked)
      else
        lockLoop rest (index + 1) fna states := rfl

theorem lockLoop_getKey_not_mem (cs : List Computed) (idx : Nat) (fna : Int)
    (states : StateMap) (x : String) (hx : x ∉ cs.map (·.id)) :
    getKey (lockLoop cs idx fna states) x = getKey states x := by
  induction cs generalizing idx states with
  | nil => rfl
  | cons c rest ih =>
    have hxc : x ≠ c.id := fun h =>
      hx (by rw [List.map_cons, h]; exact List.mem_cons_self _ _)
    have hxr : x ∉ rest.map (·.id) := fun h =>
      hx (by rw [List.map_cons]; exact List.mem_cons_of_mem _ h)
    rw [lockLoop_cons]
    by_cases h1 : (getKey states c.id).isSome
    · rw [if_pos h1, ih _ _ hxr]
    · rw [if_neg h1]
      by_cases h2 : (idx : Int) = fna
      · rw [if_pos h2, ih _ _ hxr, getKey_setKey_ne _ _ _ _ hxc]
      · rw [if_neg h2]
        by_cases h3 : (idx : Int) > fna
        · rw [if_pos h3, ih _ _ hxr, getKey_setKey_ne _ _ _ _ hxc]
        · rw [if_neg h3, ih _ _ hxr]

theorem lockLoop_getKey_at (cs : List Computed) (idx : Nat) (fna : Int)
    (states : StateMap) (hnd : (cs.map (·.id)).Nodup) (k : Nat) (c : Computed)
    (hk : cs[k]? = some c) :
    getKey (lockLoop cs idx fna states) c.id =
      if (getKey states c.id).isSome then getKey states c.id
      else if ((idx : Int) + k) = fna then
        some (if c.isLoading then .loading else .next)
      else if ((idx : Int) + k) > fna then some .locked
      else getKey states c.id := by
  induction cs generalizing idx states k with
  | nil => simp at hk
  | cons c0 rest ih =>
    rw [List.map_cons, List.nodup_cons] at hnd
    obtain ⟨hc0nm, hnd'⟩ := hnd
    cases k with
    | zero =>
      simp only [List.getElem?_cons_zero, Option.some_inj] at hk
      rw [← hk]
      rw [lockLoop_cons]
      by_cases h1 : (getKey states c0.id).isSome
      · rw [if_pos h1, if_pos h1, lockLoop_getKey_not_mem _ _ _ _ _ hc0nm]
      · rw [if_neg h1, if_neg h1]
        rw [show (idx : Int) + ((0 : Nat) : Int) = (idx : Int) from by
          push_cast; ring]
        by_cases h2 : (idx : Int) = fna
        · rw [if_pos h2, if_pos h2, lockLoop_getKey_not_mem _ _ _ _ _ hc0nm,
            getKey_setKey_self]
        · rw [if_neg h2, if_neg h2]
          by_cases h3 : (idx : Int) > fna
          · rw [if_pos h3, if_pos h3, lockLoop_getKey_not_mem _ _ _ _ _ hc0nm,
              getKey_setKey_self]
          · rw [if_neg h3, if_neg h3, lockLoop_getKey_not_mem _ _ _ _ _ hc0nm]
    | succ k0 =>
      have hk0 : rest[k0]? = some c := by simpa using hk
      have hcmem : c.id ∈ rest.map (·.id) := by
        have : c ∈ rest := by
          have := List.getElem?_eq_some_iff.mp hk0
          obtain ⟨hlt, hget⟩ := this
          exact hget ▸ List.getElem_mem hlt
        exact List.mem_map_of_mem _ this
      have hne : c.id ≠ c0.id := fun h => hc0nm (h ▸ hcmem)
      have hcast : ((idx + 1 : Nat) : Int) + (k0 : Nat) =
          (idx : Int) + ((k0 + 1 : Nat) : Int) := by push_cast; ring
      rw [lockLoop_cons]
      by_cases h1 : (getKey states c0.id).isSome
      · rw [if_pos h1, ih _ _ hnd' k0 hk0, hcast]
      · rw [if_neg h1]
        by_cases h2 : (idx : Int) = fna
        · rw [if_pos h2, ih _ _ hnd' k0 hk0, hcast,
            getKey_setKey_ne _ _ _ _ hne]
        · rw [if_neg h2]
          by_cases h3 : (idx : Int) > fna
          · rw [if_pos h3, ih _ _ hnd' k0 hk0, hcast,
              getKey_setKey_ne _ _ _ _ hne]
          · rw [if_neg h3, ih _ _ hnd' k0 hk0, hcast]

/-! ## Stage 3: retagging completed steps -/

theorem completedLoop_cons (id : String) (rest : List String) (index : Nat)
    (ci : Int) (states : StateMap) :
    completedLoop (id :: rest) index ci states =
      if (index : Int) < ci ∧ getKey states id = some .available then
        completedLoop rest (index + 1) ci (setKey states id .completed)
      else
        completedLoop rest (index + 1) ci states := rfl

theorem completedLoop_getKey_not_mem (ids : List String) (idx : Nat) (ci : Int)
    (states : StateMap) (x : String) (hx : x ∉ ids) :
    getKey (completedLoop ids idx ci states) x = getKey states x := by
  induction ids generalizing idx states with
  | nil => rfl
  | cons id rest ih =>
    have hxc : x ≠ id := fun h => hx (by rw [h]; exact List.mem_cons_self _ _)
    have hxr : x ∉ rest := fun h => hx (List.mem_cons_of_mem _ h)
    rw [completedLoop_cons]
    by_cases h1 : (idx : Int) < ci ∧ getKey states id = some .available
    · rw [if_pos h1, ih _ _ hxr, getKey_setKey_ne _ _ _ _ hxc]
    · rw [if_neg h1, ih _ _ hxr]

theorem completedLoop_getKey_at (ids : List String) (idx : Nat) (ci : Int)
    (states : StateMap) (hnd : ids.Nodup) (k : Nat) (x : String)
    (hk : ids[k]? = some x) :
    getKey (completedLoop ids idx ci states) x =
      if ((idx : Int) + k) < ci ∧ getKey states x = some .available then
        some .completed
      else getKey states x := by
  induction ids generalizing idx states k with
  | nil => simp at hk
  | cons id rest ih =>
    rw [List.nodup_cons] at hnd
    obtain ⟨hidnm, hnd'⟩ := hnd
    cases k with
    | zero =>
      simp only [List.getElem?_cons_zero, Option.some_inj] at hk
      rw [← hk]
      rw [completedLoop_cons]
      rw [show (idx : Int) + ((0 : Nat) : Int) = (idx : Int) from by
        push_cast; ring]
      by_cases h1 : (idx : Int) < ci ∧ getKey states id = some .available
      · rw [if_pos h1, if_pos h1, completedLoop_getKey_not_mem _ _ _ _ _ hidnm,
          getKey_setKey_self]
      · rw [if_neg h1, if_neg h1, completedLoop_getKey_not_mem _ _ _ _ _ hidnm]
    | succ k0 =>
      have hk0 : rest[k0]? = some x := by simpa using hk
      have hxmem : x ∈ rest := by
        have := List.getElem?_eq_some_iff.mp hk0
        obtain ⟨hlt, hget⟩ := this
        exact hget ▸ List.getElem_mem hlt
      have hne : x ≠ id := fun h => hidnm (h ▸ hxmem)
      have hcast : ((idx + 1 : Nat) : Int) + (k0 : Nat) =
          (idx : Int) + ((k0 + 1 : Nat) : Int) := by push_cast; ring
      rw [completedLoop_cons]
      by_cases h1 : (idx : Int) < ci ∧ getKey states id = some .available
      · rw [if_pos h1, ih _ _ hnd' k0 hk0, hcast,
          getKey_setKey_ne _ _ _ _ hne]
      · rw [if_neg h1, ih _ _ hnd' k0 hk0, hcast]

/-! ## Characterizing the computed status of each configured step -/

theorem mem_availIds_iff (mc : List String) (cs : List Computed)
    (hnd : (cs.map (·.id)).Nodup) (c : Computed) (hc : c ∈ cs) :
    c.id ∈ availIds mc cs ↔ availC mc c = true := by
  constructor
  · intro hmem
    rw [availIds, List.mem_map] at hmem
    obtain ⟨c0, hc0f, hc0id⟩ := hmem
    rw [List.mem_filter] at hc0f
    obtain ⟨hc0mem, hc0av⟩ := hc0f
    have : c0 = c := List.inj_on_of_nodup_map hnd hc0mem hc hc0id
    rwa [← this]
  · intro hav
    rw [availIds, List.mem_map]
    exact ⟨c, List.mem_filter.mpr ⟨hc, hav⟩, rfl⟩

theorem activeOverride_getKey_cur (m : StateMap) (cur : String) :
    getKey (activeOverride m cur) cur =
      some ((getKey m cur).elim .locked
        (fun s => if s = .locked then .locked else .active)) := by
  cases h : getKey m cur with
  | none =>
    have hred : activeOverride m cur = setKey m cur .locked := by
      unfold activeOverride
      rw [h]
    rw [hred, getKey_setKey_self]
    rfl
  | some s =>
    have hred : activeOverride m cur =
        if s ≠ Status.locked then setKey m cur Status.active else m := by
      unfold activeOverride
      rw [h]
    by_cases hs : s = Status.locked
    · rw [hred, if_neg (fun hne => hne hs), h, Option.elim_some, if_pos hs, hs]
    · rw [hred, if_pos hs, getKey_setKey_self, Option.elim_some, if_neg hs]

theorem activeOverride_getKey_ne (m : StateMap) (cur x : String)
    (h : x ≠ cur) : getKey (activeOverride m cur) x = getKey m x := by
  cases hm : getKey m cur with
  | none =>
    have hred : activeOverride m cur = setKey m cur .locked := by
      unfold activeOverride
      rw [hm]
    rw [hred, getKey_setKey_ne _ _ _ _ h]
  | some s =>
    have hred : activeOverride m cur =
        if s ≠ Status.locked then setKey m cur Status.active else m := by
      unfold activeOverride
      rw [hm]
    by_cases hs : s = Status.locked
    · rw [hred, if_neg (fun hne => hne hs)]
    · rw [hred, if_pos hs, getKey_setKey_ne _ _ _ _ h]

theorem computed_ids {γ : Type} (steps : List (Step γ)) (ctx : γ) :
    (steps.map (fun s => computeStep s ctx)).map (·.id) = steps.map (·.id) := by
  rw [List.map_map]
  rfl

theorem preOverrideStates_eq (cs : List Computed) (mc : List String)
    (cur : String) :
    preOverrideStates cs mc cur =
      completedLoop (cs.map (·.id)) 0
        (findIndexId (cs.map (·.id)) cur)
        (if (markAvailableLoop mc cs 0 [] (-1)).2 ≠ -1 then
          lockLoop cs 0 (markAvailableLoop mc cs 0 [] (-1)).2
            (markAvailableLoop mc cs 0 [] (-1)).1
         else (markAvailableLoop mc cs 0 [] (-1)).1) := rfl

/-- The per-step characterization of the pre-override status map: under
duplicate-free ids, the step at index `k` is `completed`/`available` when
available (split on being before the current index), `loading`/`next` at the
frontier, and `locked` after it. -/
theorem preOverride_getKey_at (mc : List String) (cs : List Computed)
    (cur : String) (hnd : (cs.map (·.id)).Nodup) (k : Nat) (c : Computed)
    (hk : cs[k]? = some c) :
    getKey (preOverrideStates cs mc cur) c.id =
      some (
        if availC mc c = true then
          (if (k : Int) < findIndexId (cs.map (·.id)) cur then .completed
           else .available)
        else if firstNonAvail mc cs = some k then
          (if c.isLoading then .loading else .next)
        else .locked) := by
  have hcmem : c ∈ cs := by
    obtain ⟨hlt, hget⟩ := List.getElem?_eq_some_iff.mp hk
    exact hget ▸ List.getElem_mem hlt
  have hkid : (cs.map (·.id))[k]? = some c.id := by
    rw [List.getElem?_map, hk]
    rfl
  have hmarkc : getKey (markAvailableLoop mc cs 0 [] (-1)).1 c.id =
      if availC mc c = true then some .available else none := by
    rw [markAvailableLoop_getKey mc cs 0 [] (-1) c.id]
    by_cases hav : availC mc c = true
    · rw [if_pos ((mem_availIds_iff mc cs hnd c hcmem).mpr hav), if_pos hav]
    · rw [if_neg (fun hmem =>
        hav ((mem_availIds_iff mc cs hnd c hcmem).mp hmem)), if_neg hav]
      rfl
  have hfna := markAvailableLoop_fna mc cs 0 [] (-1)
  rw [if_pos rfl] at hfna
  have hzk : ((0 : Nat) : Int) + (k : Int) = (k : Int) := by push_cast; ring
  rw [preOverrideStates_eq]
  cases hF : firstNonAvail mc cs with
  | none =>
    have hav : availC mc c = true :=
      (firstNonAvail_eq_none_iff mc cs).mp hF c hcmem
    have h2 : (markAvailableLoop mc cs 0 [] (-1)).2 = -1 := by
      rw [hfna, hF]
      rfl
    have hmarkc' : getKey (markAvailableLoop mc cs 0 [] (-1)).1 c.id =
        some .available := by
      rw [hmarkc, if_pos hav]
    rw [if_neg (show ¬ ((markAvailableLoop mc cs 0 [] (-1)).2 ≠ -1) from by
      rw [h2]; exact fun hcon => hcon rfl)]
    rw [completedLoop_getKey_at _ _ _ _ hnd k c.id hkid, hmarkc', hzk,
      if_pos hav]
    by_cases hlt : (k : Int) < findIndexId (cs.map (·.id)) cur
    · rw [if_pos ⟨hlt, rfl⟩, if_pos hlt]
    · rw [if_neg (fun hand => hlt hand.1), if_neg hlt]
  | some f =>
    have h2 : (markAvailableLoop mc cs 0 [] (-1)).2 = (f : Int) := by
      rw [hfna, hF]
      simp
    rw [if_pos (show (markAvailableLoop mc cs 0 [] (-1)).2 ≠ -1 from by
      rw [h2]; omega)]
    by_cases hav : availC mc c = true
    · have hmarkc' : getKey (markAvailableLoop mc cs 0 [] (-1)).1 c.id =
          some .available := by
        rw [hmarkc, if_pos hav]
      have hlock : getKey (lockLoop cs 0 (markAvailableLoop mc cs 0 [] (-1)).2
          (markAvailableLoop mc cs 0 [] (-1)).1) c.id = some .available := by
        rw [lockLoop_getKey_at _ _ _ _ hnd k c hk, hmarkc']
        simp
      rw [completedLoop_getKey_at _ _ _ _ hnd k c.id hkid, hlock, hzk,
        if_pos hav]
      by_cases hlt : (k : Int) < findIndexId (cs.map (·.id)) cur
      · rw [if_pos ⟨hlt, rfl⟩, if_pos hlt]
      · rw [if_neg (fun hand => hlt hand.1), if_neg hlt]
    · have hmarkc' : getKey (markAvailableLoop mc cs 0 [] (-1)).1 c.id =
          none := by
        rw [hmarkc, if_neg hav]
      have hle : f ≤ k := by
        obtain ⟨j, hjk, hj⟩ := firstNonAvail_le_of_not_avail mc cs k c hk
          (Bool.eq_false_iff.mpr hav)
        rw [hF] at hj
        obtain rfl : f = j := by simpa using hj
        exact hjk
      have hlockval : getKey (lockLoop cs 0 (markAvailableLoop mc cs 0 [] (-1)).2
          (markAvailableLoop mc cs 0 [] (-1)).1) c.id =
          if k = f then some (if c.isLoading then .loading else .next)
          else some .locked := by
        rw [lockLoop_getKey_at _ _ _ _ hnd k c hk, hmarkc', h2,
          if_neg (show ¬ ((none : Option Status).isSome = true) from by simp)]
        by_cases hkf : k = f
        · rw [if_pos (show ((0 : Nat) : Int) + (k : Int) = (f : Int) from by
            omega)]
          rw [if_pos hkf]
        · have hflt : (f : Int) < (k : Int) := by
            have : f < k := lt_of_le_of_ne hle (fun hcon => hkf hcon.symm)
            exact_mod_cast this
          rw [if_neg (by omega), if_pos (by omega), if_neg hkf]
      rw [completedLoop_getKey_at _ _ _ _ hnd k c.id hkid, hlockval,
        if_neg hav]
      by_cases hkf : k = f
      · rw [if_pos hkf,
          if_neg (show ¬ (((0 : Nat) : Int) + (k : Int) <
              findIndexId (cs.map (·.id)) cur ∧
            some (if c.isLoading then Status.loading else Status.next) =
              some Status.available) from by
            rintro ⟨-, hcon⟩
            split at hcon <;> simp at hcon),
          if_pos (show (some f : Option Nat) = some k from by rw [hkf])]
      · rw [if_neg hkf,
          if_neg (show ¬ (((0 : Nat) : Int) + (k : Int) <
              findIndexId (cs.map (·.id)) cur ∧
            (some Status.locked : Option Status) = some Status.available) from by
            rintro ⟨-, hcon⟩
            simp at hcon),
          if_neg (show ¬ ((some f : Option Nat) = some k) from by
            intro hcon
            exact hkf (by simpa using hcon.symm))]

/-! ## Which entries each stage can add -/

theorem mem_markAvailableLoop (mc : List String) (cs : List Computed)
    (idx : Nat) (states : StateMap) (fna : Int) (p : String × Status)
    (hp : p ∈ (markAvailableLoop mc cs idx states fna).1) :
    p ∈ states ∨ (p.1 ∈ cs.map (·.id) ∧ p.2 = .available) := by
  induction cs generalizing idx states fna with
  | nil => exact Or.inl hp
  | cons c rest ih =>
    rw [markAvailableLoop_cons] at hp
    by_cases hc : availC mc c = true
    · rw [if_pos hc] at hp
      rcases ih _ _ _ hp with h | ⟨hmem, hval⟩
      · rcases mem_setKey _ _ _ _ h with hpe | hpm
        · right
          refine ⟨?_, by rw [hpe]⟩
          rw [hpe, List.map_cons]
          exact List.mem_cons_self _ _
        · exact Or.inl hpm
      · right
        exact ⟨by rw [List.map_cons]; exact List.mem_cons_of_mem _ hmem, hval⟩
    · rw [if_neg hc] at hp
      by_cases hf : fna = -1
      · rw [if_pos hf] at hp
        rcases ih _ _ _ hp with h | ⟨hmem, hval⟩
        · exact Or.inl h
        · right
          exact ⟨by rw [List.map_cons]; exact List.mem_cons_of_mem _ hmem, hval⟩
      · rw [if_neg hf] at hp
        rcases ih _ _ _ hp with h | ⟨hmem, hval⟩
        · exact Or.inl h
        · right
          exact ⟨by rw [List.map_cons]; exact List.mem_cons_of_mem _ hmem, hval⟩

theorem mem_lockLoop (cs : List Computed) (idx : Nat) (fna : Int)
    (states : StateMap) (p : String × Status)
    (hp : p ∈ lockLoop cs idx fna states) :
    p ∈ states ∨ (p.1 ∈ cs.map (·.id) ∧
      (p.2 = .loading ∨ p.2 = .next ∨ p.2 = .locked)) := by
  induction cs generalizing idx states with
  | nil => exact Or.inl hp
  | cons c rest ih =>
    rw [lockLoop_cons] at hp
    have hrest : ∀ states0 : StateMap, p ∈ lockLoop rest (idx + 1) fna states0 →
        p ∈ states0 ∨ (p.1 ∈ (c :: rest).map (·.id) ∧
          (p.2 = .loading ∨ p.2 = .next ∨ p.2 = .locked)) := by
      intro states0 hp0
      rcases ih _ _ hp0 with h | ⟨hmem, hval⟩
      · exact Or.inl h
      · right
        exact ⟨by rw [List.map_cons]; exact List.mem_cons_of_mem _ hmem, hval⟩
    by_cases h1 : (getKey states c.id).isSome
    · rw [if_pos h1] at hp
      exact hrest states hp
    · rw [if_neg h1] at hp
      by_cases h2 : (idx : Int) = fna
      · rw [if_pos h2] at hp
        rcases hrest _ hp with h | h
        · rcases mem_setKey _ _ _ _ h with hpe | hpm
          · right
            refine ⟨by rw [hpe, List.map_cons]; exact List.mem_cons_self _ _, ?_⟩
            rw [hpe]
            by_cases hl : c.isLoading = true
            · rw [if_pos hl]; exact Or.inl rfl
            · rw [if_neg hl]; exact Or.inr (Or.inl rfl)
          · exact Or.inl hpm
        · exact Or.inr h
      · rw [if_neg h2] at hp
        by_cases h3 : (idx : Int) > fna
        · rw [if_pos h3] at hp
          rcases hrest _ hp with h | h
          · rcases mem_setKey _ _ _ _ h with hpe | hpm
            · right
              refine ⟨by rw [hpe, List.map_cons]; exact List.mem_cons_self _ _,
                Or.inr (Or.inr (by rw [hpe]))⟩
            · exact Or.inl hpm
          · exact Or.inr h
        · rw [if_neg h3] at hp
          exact hrest states hp

theorem mem_completedLoop (ids : List String) (idx : Nat) (ci : Int)
    (states : StateMap) (p : String × Status)
    (hp : p ∈ completedLoop ids idx ci states) :
    p ∈ states ∨ (p.1 ∈ ids ∧ p.2 = .completed) := by
  induction ids generalizing idx states with
  | nil => exact Or.inl hp
  | cons id rest ih =>
    rw [completedLoop_cons] at hp
    by_cases h1 : (idx : Int) < ci ∧ getKey states id = some .available
    · rw [if_pos h1] at hp
      rcases ih _ _ hp with h | ⟨hmem, hval⟩
      · rcases mem_setKey _ _ _ _ h with hpe | hpm
        · right
          exact ⟨by rw [hpe]; exact List.mem_cons_self _ _, by rw [hpe]⟩
        · exact Or.inl hpm
      · exact Or.inr ⟨List.mem_cons_of_mem _ hmem, hval⟩
    · rw [if_neg h1] at hp
      rcases ih _ _ hp with h | ⟨hmem, hval⟩
      · exact Or.inl h
      · exact Or.inr ⟨List.mem_cons_of_mem _ hmem, hval⟩

theorem mem_activeOverride (m : StateMap) (cur : String) (p : String × Status)
    (hp : p ∈ activeOverride m cur) :
    p ∈ m ∨ (p.1 = cur ∧ (p.2 = .active ∨ p.2 = .locked)) := by
  cases hm : getKey m cur with
  | none =>
    have hred : activeOverride m cur = setKey m cur .locked := by
      unfold activeOverride
      rw [hm]
    rw [hred] at hp
    rcases mem_setKey _ _ _ _ hp with hpe | hpm
    · exact Or.inr ⟨by rw [hpe], Or.inr (by rw [hpe])⟩
    · exact Or.inl hpm
  | some s =>
    have hred : activeOverride m cur =
        if s ≠ Status.locked then setKey m cur Status.active else m := by
      unfold activeOverride
      rw [hm]
    rw [hred] at hp
    by_cases hs : s ≠ Status.locked
    · rw [if_pos hs] at hp
      rcases mem_setKey _ _ _ _ hp with hpe | hpm
      · exact Or.inr ⟨by rw [hpe], Or.inl (by rw [hpe])⟩
      · exact Or.inl hpm
    · rw [if_neg hs] at hp
      exact Or.inl hp

/-! ## The map's keys stay duplicate-free -/

theorem nodup_keys_markAvailableLoop (mc : List String) (cs : List Computed)
    (idx : Nat) (states : StateMap) (fna : Int)
    (h : (keys states).Nodup) :
    (keys (markAvailableLoop mc cs idx states fna).1).Nodup := by
  induction cs generalizing idx states fna with
  | nil => exact h
  | cons c rest ih =>
    rw [markAvailableLoop_cons]
    by_cases hc : availC mc c = true
    · rw [if_pos hc]
      exact ih _ _ _ (nodup_keys_setKey _ _ _ h)
    · rw [if_neg hc]
      by_cases hf : fna = -1
      · rw [if_pos hf]; exact ih _ _ _ h
      · rw [if_neg hf]; exact ih _ _ _ h

theorem nodup_keys_lockLoop (cs : List Computed) (idx : Nat) (fna : Int)
    (states : StateMap) (h : (keys states).Nodup) :
    (keys (lockLoop cs idx fna states)).Nodup := by
  induction cs generalizing idx states with
  | nil => exact h
  | cons c rest ih =>
    rw [lockLoop_cons]
    by_cases h1 : (getKey states c.id).isSome
    · rw [if_pos h1]; exact ih _ _ h
    · rw [if_neg h1]
      by_cases h2 : (idx : Int) = fna
      · rw [if_pos h2]; exact ih _ _ (nodup_keys_setKey _ _ _ h)
      · rw [if_neg h2]
        by_cases h3 : (idx : Int) > fna
        · rw [if_pos h3]; exact ih _ _ (nodup_keys_setKey _ _ _ h)
        · rw [if_neg h3]; exact ih _ _ h

theorem nodup_keys_completedLoop (ids : List String) (idx : Nat) (ci : Int)
    (states : StateMap) (h : (keys states).Nodup) :
    (keys (completedLoop ids idx ci states)).Nodup := by
  induction ids generalizing idx states with
  | nil => exact h
  | cons id rest ih =>
    rw [completedLoop_cons]
    by_cases h1 : (idx : Int) < ci ∧ getKey states id = some .available
    · rw [if_pos h1]; exact ih _ _ (nodup_keys_setKey _ _ _ h)
    · rw [if_neg h1]; exact ih _ _ h

theorem nodup_keys_activeOverride (m : StateMap) (cur : String)
    (h : (keys m).Nodup) : (keys (activeOverride m cur)).Nodup := by
  cases hm : getKey m cur with
  | none =>
    have hred : activeOverride m cur = setKey m cur .locked := by
      unfold activeOverride
      rw [hm]
    rw [hred]
    exact nodup_keys_setKey _ _ _ h
  | some s =>
    have hred : activeOverride m cur =
        if s ≠ Status.locked then setKey m cur Status.active else m := by
      unfold activeOverride
      rw [hm]
    rw [hred]
    by_cases hs : s ≠ Status.locked
    · rw [if_pos hs]; exact nodup_keys_setKey _ _ _ h
    · rw [if_neg hs]; exact h

/-- The keys of the computed status map never repeat. -/
theorem nodup_keys_stepStates {γ : Type} (steps : List (Step γ)) (ctx : γ)
    (mc : List String) (cur : String) :
    (keys (stepStatesCompute steps ctx mc cur)).Nodup := by
  refine nodup_keys_activeOverride _ _ ?_
  rw [preOverrideStates_eq]
  refine nodup_keys_completedLoop _ _ _ _ ?_
  by_cases hf : (markAvailableLoop mc (steps.map (fun s => computeStep s ctx))
      0 [] (-1)).2 ≠ -1
  · rw [if_pos hf]
    exact nodup_keys_lockLoop _ _ _ _
      (nodup_keys_markAvailableLoop _ _ _ _ _ List.nodup_nil)
  · rw [if_neg hf]
    exact nodup_keys_markAvailableLoop _ _ _ _ _ List.nodup_nil

/-! ## Properties of findIndexId -/

theorem findIndexId_cons (id : String) (rest : List String) (x : String) :
    findIndexId (id :: rest) x =
      if id = x then 0
      else if findIndexId rest x = -1 then -1 else findIndexId rest x + 1 := rfl

theorem findIndexId_not_mem (ids : List String) (x : String) (hx : x ∉ ids) :
    findIndexId ids x = -1 := by
  induction ids with
  | nil => rfl
  | cons id rest ih =>
    have hne : ¬ id = x := fun h => hx (by rw [h]; exact List.mem_cons_self _ _)
    have hxr : x ∉ rest := fun h => hx (List.mem_cons_of_mem _ h)
    rw [findIndexId_cons, if_neg hne, ih hxr, if_pos rfl]

theorem findIndexId_spec (ids : List String) (x : String) (hx : x ∈ ids) :
    ∃ n : Nat, findIndexId ids x = (n : Int) ∧ ids[n]? = some x ∧
      ∀ i : Nat, i < n → ids[i]? ≠ some x := by
  induction ids with
  | nil => cases hx
  | cons id rest ih =>
    by_cases hid : id = x
    · exact ⟨0, by rw [findIndexId_cons, if_pos hid]; simp, by simp [hid],
        fun i hi => absurd hi (Nat.not_lt_zero i)⟩
    · have hxr : x ∈ rest := by
        rcases List.mem_cons.mp hx with h | h
        · exact absurd h.symm hid
        · exact h
      obtain ⟨n, hn, hget, hmin⟩ := ih hxr
      refine ⟨n + 1, ?_, by simpa using hget, ?_⟩
      · rw [findIndexId_cons, if_neg hid, hn, if_neg (by omega)]
        push_cast
        ring
      · intro i hi
        cases i with
        | zero =>
          intro hcon
          exact hid (by simpa using hcon)
        | succ i0 =>
          intro hcon
          exact hmin i0 (by omega) (by simpa using hcon)

theorem findIndexId_mem_of_nonneg (ids : List String) (x : String)
    (h : 0 ≤ findIndexId ids x) : x ∈ ids := by
  by_cases hx : x ∈ ids
  · exact hx
  · rw [findIndexId_not_mem ids x hx] at h
    omega

theorem findIndexId_getLast (ids : List String) (hne : ids ≠ [])
    (hnd : ids.Nodup) :
    findIndexId ids (ids.getLast hne) = (ids.length : Int) - 1 := by
  induction ids with
  | nil => exact absurd rfl hne
  | cons id rest ih =>
    by_cases hr : rest = []
    · subst hr
      simp [findIndexId_cons]
    · have hlast : (id :: rest).getLast hne = rest.getLast hr :=
        List.getLast_cons hr
      rw [List.nodup_cons] at hnd
      have hlmem : rest.getLast hr ∈ rest := List.getLast_mem hr
      have hid : ¬ id = rest.getLast hr := fun h => hnd.1 (h ▸ hlmem)
      have hpos : 0 < rest.length := List.length_pos.mpr hr
      rw [hlast, findIndexId_cons, if_neg hid, ih hr hnd.2,
        if_neg (by omega)]
      rw [List.length_cons]
      push_cast
      ring

/-! ## Properties of findNextUnlocked -/

theorem findNextUnlocked_cons (m : StateMap) (ci : Int) (id : String)
    (rest : List String) (index : Nat) :
    findNextUnlocked m ci (id :: rest) index =
      if (index : Int) ≤ ci then findNextUnlocked m ci rest (index + 1)
      else
        match getKey m id with
        | some st =>
          if st ≠ .locked then some id
          else findNextUnlocked m ci rest (index + 1)
        | none => findNextUnlocked m ci rest (index + 1) := rfl

theorem findNextUnlocked_cons_le (m : StateMap) (ci : Int) (id : String)
    (rest : List String) (index : Nat) (h1 : (index : Int) ≤ ci) :
    findNextUnlocked m ci (id :: rest) index =
      findNextUnlocked m ci rest (index + 1) := by
  rw [findNextUnlocked_cons, if_pos h1]

theorem findNextUnlocked_cons_undef (m : StateMap) (ci : Int) (id : String)
    (rest : List String) (index : Nat) (h1 : ¬ (index : Int) ≤ ci)
    (hget : getKey m id = none) :
    findNextUnlocked m ci (id :: rest) index =
      findNextUnlocked m ci rest (index + 1) := by
  rw [findNextUnlocked_cons, if_neg h1, hget]

theorem findNextUnlocked_cons_def (m : StateMap) (ci : Int) (id : String)
    (rest : List String) (index : Nat) (st : Status)
    (h1 : ¬ (index : Int) ≤ ci) (hget : getKey m id = some st) :
    findNextUnlocked m ci (id :: rest) index =
      if st ≠ .locked then some id
      else findNextUnlocked m ci rest (index + 1) := by
  rw [findNextUnlocked_cons, if_neg h1, hget]

theorem findNextUnlocked_mem (m : StateMap) (ci : Int) (ids : List String)
    (idx : Nat) (id : String) (h : findNextUnlocked m ci ids idx = some id) :
    id ∈ ids := by
  induction ids generalizing idx with
  | nil => cases h
  | cons id0 rest ih =>
    by_cases h1 : (idx : Int) ≤ ci
    · rw [findNextUnlocked_cons_le _ _ _ _ _ h1] at h
      exact List.mem_cons_of_mem _ (ih _ h)
    · cases hget : getKey m id0 with
      | none =>
        rw [findNextUnlocked_cons_undef _ _ _ _ _ h1 hget] at h
        exact List.mem_cons_of_mem _ (ih _ h)
      | some st =>
        rw [findNextUnlocked_cons_def _ _ _ _ _ _ h1 hget] at h
        by_cases hst : st ≠ Status.locked
        · rw [if_pos hst] at h
          rw [show id = id0 from (Option.some_inj.mp h).symm]
          exact List.mem_cons_self _ _
        · rw [if_neg hst] at h
          exact List.mem_cons_of_mem _ (ih _ h)

theorem findNextUnlocked_all_le (m : StateMap) (ci : Int) (ids : List String)
    (idx : Nat) (h : ∀ k : Nat, k < ids.length → (idx : Int) + k ≤ ci) :
    findNextUnlocked m ci ids idx = none := by
  induction ids generalizing idx with
  | nil => rfl
  | cons id0 rest ih =>
    have h0 : (idx : Int) ≤ ci := by
      have := h 0 (by simp)
      simpa using this
    rw [findNextUnlocked_cons_le _ _ _ _ _ h0]
    refine ih _ (fun k hk => ?_)
    have := h (k + 1) (by simpa using Nat.succ_lt_succ hk)
    push_cast at this ⊢
    omega

theorem findNextUnlocked_some_spec (m : StateMap) (ci : Int)
    (ids : List String) (idx : Nat) (id : String)
    (h : findNextUnlocked m ci ids idx = some id) :
    ∃ k : Nat, k < ids.length ∧ ids[k]? = some id ∧ ci < (idx : Int) + k ∧
      (∃ st, getKey m id = some st ∧ st ≠ .locked) ∧
      (∀ l : Nat, l < k → ∀ y, ids[l]? = some y → ci < (idx : Int) + l →
        ∀ st, getKey m y = some st → st = .locked) := by
  induction ids generalizing idx with
  | nil => cases h
  | cons id0 rest ih =>
    by_cases h1 : (idx : Int) ≤ ci
    · rw [findNextUnlocked_cons_le _ _ _ _ _ h1] at h
      obtain ⟨k, hk, hget, hci, hnav, hmin⟩ := ih _ h
      refine ⟨k + 1, by simpa using Nat.succ_lt_succ hk, by simpa using hget,
        by push_cast at hci ⊢; omega, hnav, ?_⟩
      intro l hl y hy hci0
      cases l with
      | zero =>
        intro st hst
        exfalso
        push_cast at hci0
        omega
      | succ l0 =>
        exact hmin l0 (by omega) y (by simpa using hy)
          (by push_cast at hci0 ⊢; omega)
    · cases hget0 : getKey m id0 with
      | none =>
        rw [findNextUnlocked_cons_undef _ _ _ _ _ h1 hget0] at h
        obtain ⟨k, hk, hget, hci, hnav, hmin⟩ := ih _ h
        refine ⟨k + 1, by simpa using Nat.succ_lt_succ hk, by simpa using hget,
          by push_cast at hci ⊢; omega, hnav, ?_⟩
        intro l hl y hy hci0
        cases l with
        | zero =>
          intro st hst
          rw [show id0 = y from by simpa using hy] at hget0
          rw [hget0] at hst
          cases hst
        | succ l0 =>
          exact hmin l0 (by omega) y (by simpa using hy)
            (by push_cast at hci0 ⊢; omega)
      | some st0 =>
        rw [findNextUnlocked_cons_def _ _ _ _ _ _ h1 hget0] at h
        by_cases hst0 : st0 ≠ Status.locked
        · rw [if_pos hst0] at h
          have hid : id0 = id := Option.some_inj.mp h
          refine ⟨0, by simp, by simp [hid], by push_cast; omega,
            ⟨st0, by rw [← hid]; exact hget0, hst0⟩, ?_⟩
          intro l hl
          exact absurd hl (Nat.not_lt_zero l)
        · rw [if_neg hst0] at h
          push_neg at hst0
          obtain ⟨k, hk, hget, hci, hnav, hmin⟩ := ih _ h
          refine ⟨k + 1, by simpa using Nat.succ_lt_succ hk, by simpa using hget,
            by push_cast at hci ⊢; omega, hnav, ?_⟩
          intro l hl y hy hci0
          cases l with
          | zero =>
            intro st hst
            rw [show id0 = y from by simpa using hy] at hget0
            have hss : st0 = st := Option.some_inj.mp (hget0.symm.trans hst)
            rw [← hss]
            exact hst0
          | succ l0 =>
            exact hmin l0 (by omega) y (by simpa using hy)
              (by push_cast at hci0 ⊢; omega)

theorem findNextUnlocked_none_spec (m : StateMap) (ci : Int)
    (ids : List String) (idx : Nat)
    (h : findNextUnlocked m ci ids idx = none) :
    ∀ k : Nat, ∀ y, ids[k]? = some y → ci < (idx : Int) + k →
      ∀ st, getKey m y = some st → st = .locked := by
  induction ids generalizing idx with
  | nil =>
    intro k y hy
    simp at hy
  | cons id0 rest ih =>
    intro k y hy hci st hst
    by_cases h1 : (idx : Int) ≤ ci
    · rw [findNextUnlocked_cons_le _ _ _ _ _ h1] at h
      cases k with
      | zero =>
        exfalso
        push_cast at hci
        omega
      | succ k0 =>
        exact ih _ h k0 y (by simpa using hy)
          (by push_cast at hci ⊢; omega) st hst
    · cases hget0 : getKey m id0 with
      | none =>
        rw [findNextUnlocked_cons_undef _ _ _ _ _ h1 hget0] at h
        cases k with
        | zero =>
          rw [show id0 = y from by simpa using hy] at hget0
          rw [hget0] at hst
          cases hst
        | succ k0 =>
          exact ih _ h k0 y (by simpa using hy)
            (by push_cast at hci ⊢; omega) st hst
      | some st0 =>
        rw [findNextUnlocked_cons_def _ _ _ _ _ _ h1 hget0] at h
        by_cases hst0 : st0 ≠ Status.locked
        · rw [if_pos hst0] at h
          cases h
        · rw [if_neg hst0] at h
          push_neg at hst0
          cases k with
          | zero =>
            rw [show id0 = y from by simpa using hy] at hget0
            have hss : st0 = st := Option.some_inj.mp (hget0.symm.trans hst)
            rw [← hss]
            exact hst0
          | succ k0 =>
            exact ih _ h k0 y (by simpa using hy)
              (by push_cast at hci ⊢; omega) st hst

/-! ## Unfolding equations for the controller operations -/

theorem navigateToStep_eq (m : StateMap) (s : Session) (now : Int)
    (stepId : String) :
    navigateToStep m s now stepId =
      if getKey m stepId = some .locked then (s, [])
      else if canNavigateNow s now = false then (s, [])
      else ({ s with lastNavAt := now, currentStepId := stepId },
            [Event.stepChanged stepId]) := rfl

theorem completeStep_eq (stepIds : List String) (s : Session) :
    completeStep stepIds s =
      if findIndexId stepIds s.currentStepId = (stepIds.length : Int) - 1 then
        ({ s with manuallyCompleted := setAdd s.manuallyCompleted s.currentStepId,
                  pendingAdvance := true }, [Event.stepChanged s.currentStepId])
      else
        ({ s with manuallyCompleted := setAdd s.manuallyCompleted s.currentStepId,
                  pendingAdvance := true }, []) := rfl

theorem deferredAdvance_eq (stepIds : List String) (m : StateMap)
    (s : Session) (now : Int) :
    deferredAdvance stepIds m s now =
      if s.pendingAdvance = false then (s, [])
      else
        match findNextUnlocked m (findIndexId stepIds s.currentStepId)
            stepIds 0 with
        | some nextId =>
          ({ s with lastNavAt := now, currentStepId := nextId, pendingAdvance := false },
           [Event.stepChanged nextId])
        | none => ({ s with pendingAdvance := false }, []) := rfl

theorem mem_setAdd (s : List String) (y x : String) (h : x ∈ setAdd s y) :
    x ∈ s ∨ x = y := by
  unfold setAdd at h
  by_cases hy : y ∈ s
  · rw [if_pos hy] at h
    exact Or.inl h
  · rw [if_neg hy] at h
    rcases List.mem_append.mp h with h | h
    · exact Or.inl h
    · exact Or.inr (by simpa using h)

theorem canNavigateNow_true (s : Session) (now : Int)
    (h : NAV_COOLDOWN_MS ≤ now - s.lastNavAt) :
    canNavigateNow s now = true := by
  simp only [canNavigateNow, decide_eq_true_eq]
  exact h

theorem canNavigateNow_false (s : Session) (now : Int)
    (h : now - s.lastNavAt < NAV_COOLDOWN_MS) :
    canNavigateNow s now = false := by
  simp only [canNavigateNow, decide_eq_false_iff_not]
  omega

/-! ## The claims -/

/-- C1 (amended): for every `stepId` whose computed status is `locked`, a
`navigateTo`/`click` call is a silent no-op — the session (in particular
`currentStepId` and the navigation timestamp) is unchanged and no
"step changed" event is emitted.  (A `stepId` that is absent from the status
map — an unknown id — is *not* rejected; see the counterexample.) -/
theorem navigateTo_locked_noop (m : StateMap) (s : Session) (now : Int)
    (stepId : String) (h : getKey m stepId = some .locked) :
    navigateToStep m s now stepId = (s, []) ∧
    handleStepClick s now stepId (getKey m stepId) = (s, []) := by
  constructor
  · rw [navigateToStep_eq, if_pos h]
  · unfold handleStepClick
    rw [if_pos h]

/-- C1 witness: step `C` of the reference scenario is `locked`, and navigating
to it changes nothing. -/
theorem navigateTo_locked_noop_witness :
    navigateToStep (stepStatesCompute exampleSteps () [] "A") (initSession "A")
      1000 "C" = (initSession "A", []) :=
  (navigateTo_locked_noop (stepStatesCompute exampleSteps () [] "A")
    (initSession "A") 1000 "C" (by decide)).1

/-- C1 counterexample: `"X"` is not the id of any configured step, yet
`navigateTo "X"` is accepted — `currentStepId` becomes `"X"`, the timestamp is
stamped, and the callback fires — because the code only rejects a status that
equals `locked` and an unknown id has no status at all. -/
theorem navigateTo_unknown_accepted :
    ("X" ∉ exampleSteps.map (fun st => st.id)) ∧
    navigateToStep (stepStatesCompute exampleSteps () [] "A") (initSession "A")
        1000 "X" =
      ({ currentStepId := "X", manuallyCompleted := [], lastNavAt := 1000,
         pendingAdvance := false }, [Event.stepChanged "X"]) := by
  exact ⟨by decide, by decide⟩

/-- C8 (P5, debounce): if a first click on a non-locked step arrives at least
the cooldown after the last accepted navigation, and a second click on a
non-locked step follows less than the cooldown later, then exactly the first
is accepted: the session is updated once, the timestamp stamped once, the
callback fires exactly once, and the second call changes nothing.  The
cooldown window is 250 ms. -/
theorem click_debounce (s0 : Session) (now1 now2 : Int) (id1 id2 : String)
    (st1 st2 : Option Status)
    (h1 : st1 ≠ some .locked) (h2 : st2 ≠ some .locked)
    (hcool : NAV_COOLDOWN_MS ≤ now1 - s0.lastNavAt)
    (hfast : now2 - now1 < NAV_COOLDOWN_MS) :
    handleStepClick s0 now1 id1 st1 =
      ({ s0 with currentStepId := id1, lastNavAt := now1 },
       [Event.stepChanged id1]) ∧
    handleStepClick { s0 with currentStepId := id1, lastNavAt := now1 }
        now2 id2 st2 =
      ({ s0 with currentStepId := id1, lastNavAt := now1 }, []) ∧
    NAV_COOLDOWN_MS = 250 := by
  refine ⟨?_, ?_, rfl⟩
  · have hcan : canNavigateNow s0 now1 = true := canNavigateNow_true s0 now1 hcool
    unfold handleStepClick
    rw [if_neg h1, if_neg (by rw [hcan]; intro hcon; cases hcon)]
  · have hcan : canNavigateNow
        { s0 with currentStepId := id1, lastNavAt := now1 } now2 = false := by
      refine canNavigateNow_false _ _ ?_
      show now2 - now1 < NAV_COOLDOWN_MS
      exact hfast
    unfold handleStepClick
    rw [if_neg h2, if_pos hcan]

/-- C8 witness: two clicks at times 1000 and 1100 on the active step. -/
theorem click_debounce_witness :
    handleStepClick (initSession "A") 1000 "A" (some .active) =
      ({ initSession "A" with currentStepId := "A", lastNavAt := 1000 },
       [Event.stepChanged "A"]) ∧
    handleStepClick
        { initSession "A" with currentStepId := "A", lastNavAt := 1000 }
        1100 "A" (some .active) =
      ({ initSession "A" with currentStepId := "A", lastNavAt := 1000 }, []) ∧
    NAV_COOLDOWN_MS = 250 :=
  click_debounce (initSession "A") 1000 1100 "A" "A" (some .active)
    (some .active) (by decide) (by decide) (by decide) (by decide)

/-- C10: the deferred-advance resolution never reads the rate-limiting
timestamp: two runs on sessions that agree on everything except `lastNavAt`
produce the same `currentStepId`, the same `manuallyCompleted` set and the
same "step changed" events — so the advance is accepted even inside the
cooldown window (the advance itself re-stamps the timestamp). -/
theorem deferredAdvance_ignores_cooldown (stepIds : List String)
    (m : StateMap) (s1 s2 : Session) (now : Int)
    (hcur : s1.currentStepId = s2.currentStepId)
    (hmc : s1.manuallyCompleted = s2.manuallyCompleted)
    (hpend : s1.pendingAdvance = s2.pendingAdvance) :
    (deferredAdvance stepIds m s1 now).1.currentStepId =
      (deferredAdvance stepIds m s2 now).1.currentStepId ∧
    (deferredAdvance stepIds m s1 now).1.manuallyCompleted =
      (deferredAdvance stepIds m s2 now).1.manuallyCompleted ∧
    (deferredAdvance stepIds m s1 now).2 = (deferredAdvance stepIds m s2 now).2 := by
  by_cases hp : s2.pendingAdvance = false
  · have hp1 : s1.pendingAdvance = false := by rw [hpend]; exact hp
    rw [deferredAdvance_eq, deferredAdvance_eq, if_pos hp1, if_pos hp]
    exact ⟨hcur, hmc, rfl⟩
  · have hp1 : ¬ s1.pendingAdvance = false := by rw [hpend]; exact hp
    rw [deferredAdvance_eq, deferredAdvance_eq, if_neg hp1, if_neg hp, hcur]
    cases hf : findNextUnlocked m (findIndexId stepIds s2.currentStepId)
        stepIds 0 with
    | none => exact ⟨rfl, hmc, rfl⟩
    | some nid => exact ⟨rfl, hmc, rfl⟩

/-- C10 witness: a session inside the cooldown window (`lastNavAt = 990`,
`now = 1000`) advances exactly like one far outside it (`lastNavAt = 0`). -/
theorem deferredAdvance_ignores_cooldown_witness :
    (deferredAdvance ["A", "B", "C"]
        (stepStatesCompute exampleSteps () ["A"] "A")
        { currentStepId := "A", manuallyCompleted := ["A"], lastNavAt := 990,
          pendingAdvance := true } 1000).1.currentStepId =
      (deferredAdvance ["A", "B", "C"]
        (stepStatesCompute exampleSteps () ["A"] "A")
        { currentStepId := "A", manuallyCompleted := ["A"], lastNavAt := 0,
          pendingAdvance := true } 1000).1.currentStepId :=
  (deferredAdvance_ignores_cooldown ["A", "B", "C"]
    (stepStatesCompute exampleSteps () ["A"] "A")
    { currentStepId := "A", manuallyCompleted := ["A"], lastNavAt := 990,
      pendingAdvance := true }
    { currentStepId := "A", manuallyCompleted := ["A"], lastNavAt := 0,
      pendingAdvance := true } 1000 rfl rfl rfl).1

theorem list_set_getElem_self {α : Type} (l : List α) (k : Nat)
    (hk : k < l.length) : l.set k l[k] = l := by
  induction l generalizing k with
  | nil => rfl
  | cons a t ih =>
    cases k with
    | zero => rfl
    | succ k0 =>
      have hk0 : k0 < t.length := by simpa using hk
      have : t.set k0 t[k0] = t := ih k0 hk0
      simp only [List.set_cons_succ, List.getElem_cons_succ, this]

theorem stepStates_congr_computed {γ : Type} (steps1 steps2 : List (Step γ))
    (ctx : γ) (mc : List String) (cur : String)
    (h : steps1.map (fun s => computeStep s ctx) =
      steps2.map (fun s => computeStep s ctx)) :
    stepStatesCompute steps1 ctx mc cur = stepStatesCompute steps2 ctx mc cur := by
  unfold stepStatesCompute
  rw [h]

/-- C6: the progress percentage is
`(completedCount + activeBonus) / totalSteps * 100` with `activeBonus = 1/2`
exactly when the current step's status is `active` or `loading`; on the
three-step reference scenario the initial statuses are
`{A: active, B: next, C: locked}` and the progress is `(0 + 1/2)/3*100 = 50/3`. -/
theorem progress_formula_and_initial_scenario :
    (∀ (m : StateMap) (cur : String) (n : Nat),
      progressCompute m cur n =
        (((m.filter (fun p => p.2 == Status.completed)).length : ℚ) +
          (if getKey m cur = some .active ∨ getKey m cur = some .loading
           then (1 : ℚ)/2 else 0)) / (n : ℚ) * 100) ∧
    stepStatesCompute exampleSteps () [] "A" =
      [("A", .active), ("B", .next), ("C", .locked)] ∧
    progressCompute (stepStatesCompute exampleSteps () [] "A") "A"
        exampleSteps.length = 50 / 3 ∧
    (50 / 3 : ℚ) = (0 + 1/2) / 3 * 100 := by
  refine ⟨fun m cur n => rfl, by decide, ?_, by norm_num⟩
  have hmap : stepStatesCompute exampleSteps () [] "A" =
      [("A", .active), ("B", .next), ("C", .locked)] := by decide
  rw [hmap]
  show ((0 : ℚ) + (1 : ℚ)/2) / (3 : ℚ) * 100 = 50 / 3
  norm_num

/-- C7 (P6, fail-closed): a step whose `validate` (resp. `isLoading`)
predicate throws produces exactly the same status map and the same progress
as the same step with a predicate returning `false`; the exception never
escapes the computation (the embedding is total: `safeTry` maps a thrown
result to the fallback). -/
theorem predicate_throw_failclosed {γ : Type} (steps : List (Step γ)) (k : Nat)
    (hk : k < steps.length) (ctx : γ) (mc : List String) (cur : String) :
    (∀ f, steps[k].validate = some f → f ctx = Except.error () →
      stepStatesCompute
          (steps.set k { steps[k] with validate := some (fun _ => Except.ok false) })
          ctx mc cur =
        stepStatesCompute steps ctx mc cur ∧
      progressCompute
          (stepStatesCompute
            (steps.set k { steps[k] with validate := some (fun _ => Except.ok false) })
            ctx mc cur) cur
          (steps.set k { steps[k] with validate := some (fun _ => Except.ok false) }).length =
        progressCompute (stepStatesCompute steps ctx mc cur) cur steps.length) ∧
    (∀ g, steps[k].isLoading = some g → g ctx = Except.error () →
      stepStatesCompute
          (steps.set k { steps[k] with isLoading := some (fun _ => Except.ok false) })
          ctx mc cur =
        stepStatesCompute steps ctx mc cur ∧
      progressCompute
          (stepStatesCompute
            (steps.set k { steps[k] with isLoading := some (fun _ => Except.ok false) })
            ctx mc cur) cur
          (steps.set k { steps[k] with isLoading := some (fun _ => Except.ok false) }).length =
        progressCompute (stepStatesCompute steps ctx mc cur) cur steps.length) := by
  have hk2 : k < (steps.map (fun s => computeStep s ctx)).length := by
    simpa using hk
  have hself : (steps.map (fun s => computeStep s ctx)).set k
      (computeStep steps[k] ctx) = steps.map (fun s => computeStep s ctx) := by
    have h0 := list_set_getElem_self (steps.map (fun s => computeStep s ctx)) k hk2
    rw [List.getElem_map] at h0
    exact h0
  constructor
  · intro f hval hthrow
    have hstep : computeStep
        { steps[k] with validate := some (fun _ => Except.ok false) } ctx =
        computeStep steps[k] ctx := by
      simp [computeStep, callValidate, callIsLoading, safeTry, hval, hthrow]
    have hmap : (steps.set k
          { steps[k] with validate := some (fun _ => Except.ok false) }).map
          (fun s => computeStep s ctx) =
        steps.map (fun s => computeStep s ctx) := by
      rw [List.map_set, hstep, hself]
    refine ⟨stepStates_congr_computed _ _ _ _ _ hmap, ?_⟩
    rw [stepStates_congr_computed _ _ _ _ _ hmap, List.length_set]
  · intro g hload hthrow
    have hstep : computeStep
        { steps[k] with isLoading := some (fun _ => Except.ok false) } ctx =
        computeStep steps[k] ctx := by
      simp [computeStep, callValidate, callIsLoading, safeTry, hload, hthrow]
    have hmap : (steps.set k
          { steps[k] with isLoading := some (fun _ => Except.ok false) }).map
          (fun s => computeStep s ctx) =
        steps.map (fun s => computeStep s ctx) := by
      rw [List.map_set, hstep, hself]
    refine ⟨stepStates_congr_computed _ _ _ _ _ hmap, ?_⟩
    rw [stepStates_congr_computed _ _ _ _ _ hmap, List.length_set]

/-- C7 witness: a one-step list whose validator throws computes the same
status map as the same list with a validator returning `false`. -/
theorem predicate_throw_failclosed_witness :
    stepStatesCompute
        ([⟨"A", some (fun _ => Except.ok false), none⟩] : List (Step Unit))
        () [] "A" =
      stepStatesCompute
        ([⟨"A", some (fun _ => Except.error ()), none⟩] : List (Step Unit))
        () [] "A" :=
  ((predicate_throw_failclosed
      ([⟨"A", some (fun _ => Except.error ()), none⟩] : List (Step Unit))
      0 (by decide) () [] "A").1
    (fun _ => Except.error ()) rfl rfl).1

/-- C9: when `completeStep` runs while the current step is the last configured
step, the controller immediately notifies "step changed" with the current id
(besides adding it to `manuallyCompleted` and requesting the deferred
advance), and the deferred advance then finds no later non-locked step, so it
only clears the flag: `currentStepId` stays put and no further event fires. -/
theorem completeStep_last_notifies (stepIds : List String) (s : Session)
    (hne : stepIds ≠ []) (hnd : stepIds.Nodup)
    (hcur : s.currentStepId = stepIds.getLast hne) :
    completeStep stepIds s =
      ({ s with manuallyCompleted := setAdd s.manuallyCompleted s.currentStepId,
                pendingAdvance := true },
       [Event.stepChanged s.currentStepId]) ∧
    ∀ (m : StateMap) (now : Int),
      deferredAdvance stepIds m
          { s with manuallyCompleted := setAdd s.manuallyCompleted s.currentStepId,
                   pendingAdvance := true } now =
        ({ s with manuallyCompleted := setAdd s.manuallyCompleted s.currentStepId,
                  pendingAdvance := false }, []) := by
  have hidx : findIndexId stepIds s.currentStepId = (stepIds.length : Int) - 1 := by
    rw [hcur]
    exact findIndexId_getLast stepIds hne hnd
  constructor
  · rw [completeStep_eq, if_pos hidx]
  · intro m now
    rw [deferredAdvance_eq]
    rw [if_neg (show ¬ (({ s with
        manuallyCompleted := setAdd s.manuallyCompleted s.currentStepId,
        pendingAdvance := true } : Session).pendingAdvance = false) from by
      intro hcon
      cases hcon)]
    have hidx2 : findIndexId stepIds ({ s with
        manuallyCompleted := setAdd s.manuallyCompleted s.currentStepId,
        pendingAdvance := true } : Session).currentStepId =
        (stepIds.length : Int) - 1 := hidx
    rw [hidx2, findNextUnlocked_all_le m _ stepIds 0
      (fun k hk => by push_cast; omega)]

/-- C9 witness: completing the last step `C` of the reference configuration. -/
theorem completeStep_last_notifies_witness :
    completeStep ["A", "B", "C"] (initSession "C") =
      ({ initSession "C" with manuallyCompleted := ["C"], pendingAdvance := true },
       [Event.stepChanged "C"]) ∧
    deferredAdvance ["A", "B", "C"] (stepStatesCompute exampleSteps () ["C"] "C")
        { initSession "C" with manuallyCompleted := ["C"], pendingAdvance := true }
        777 =
      ({ initSession "C" with manuallyCompleted := ["C"], pendingAdvance := false },
       []) := by
  have h := completeStep_last_notifies ["A", "B", "C"] (initSession "C")
    (by decide) (by decide) rfl
  exact ⟨h.1, h.2 (stepStatesCompute exampleSteps () ["C"] "C") 777⟩

/-- C5: whenever `pendingAdvance` is set and the deferred advance runs against
the (freshly recomputed) status map `m`, the controller clears the flag
unconditionally and leaves `manuallyCompleted` alone; if some step strictly
after the current index has a defined, non-`locked` status, the first such
step becomes `currentStepId`, the timestamp is stamped, and exactly one
"step changed" event fires with that id; otherwise nothing else changes and no
event fires. -/
theorem deferredAdvance_resolution (stepIds : List String) (m : StateMap)
    (s : Session) (now : Int) (hp : s.pendingAdvance = true) :
    (deferredAdvance stepIds m s now).1.pendingAdvance = false ∧
    (deferredAdvance stepIds m s now).1.manuallyCompleted =
      s.manuallyCompleted ∧
    ((∃ (k : Nat) (nid : String), k < stepIds.length ∧
        stepIds[k]? = some nid ∧
        findIndexId stepIds s.currentStepId < (k : Int) ∧
        (∃ st, getKey m nid = some st ∧ st ≠ .locked) ∧
        (∀ l : Nat, l < k → ∀ y, stepIds[l]? = some y →
          findIndexId stepIds s.currentStepId < (l : Int) →
          ∀ st, getKey m y = some st → st = .locked) ∧
        deferredAdvance stepIds m s now =
          ({ s with lastNavAt := now, currentStepId := nid, pendingAdvance := false },
           [Event.stepChanged nid])) ∨
      ((∀ k : Nat, ∀ y, stepIds[k]? = some y →
          findIndexId stepIds s.currentStepId < (k : Int) →
          ∀ st, getKey m y = some st → st = .locked) ∧
        deferredAdvance stepIds m s now =
          ({ s with pendingAdvance := false }, []))) := by
  have hpn : ¬ s.pendingAdvance = false := by
    rw [hp]
    intro hcon
    cases hcon
  cases hf : findNextUnlocked m (findIndexId stepIds s.currentStepId)
      stepIds 0 with
  | none =>
    have heq : deferredAdvance stepIds m s now =
        ({ s with pendingAdvance := false }, []) := by
      rw [deferredAdvance_eq, if_neg hpn, hf]
    refine ⟨by rw [heq], by rw [heq], Or.inr ⟨?_, heq⟩⟩
    intro k y hy hci st hst
    have := findNextUnlocked_none_spec m _ stepIds 0 hf k y hy
      (by push_cast; omega) st hst
    exact this
  | some nid =>
    have heq : deferredAdvance stepIds m s now =
        ({ s with lastNavAt := now, currentStepId := nid, pendingAdvance := false },
         [Event.stepChanged nid]) := by
      rw [deferredAdvance_eq, if_neg hpn, hf]
    obtain ⟨k, hk, hget, hci, hnav, hmin⟩ :=
      findNextUnlocked_some_spec m _ stepIds 0 nid hf
    refine ⟨by rw [heq], by rw [heq],
      Or.inl ⟨k, nid, hk, hget, by push_cast at hci ⊢; omega, hnav, ?_, heq⟩⟩
    intro l hl y hy hci0 st hst
    exact hmin l hl y hy (by push_cast at hci0 ⊢; omega) st hst

/-- C5 witness: after completing `A` in the reference scenario, the deferred
advance moves to `B` and fires exactly one event. -/
theorem deferredAdvance_resolution_witness :
    (deferredAdvance ["A", "B", "C"]
        (stepStatesCompute exampleSteps () ["A"] "A")
        { currentStepId := "A", manuallyCompleted := ["A"], lastNavAt := 0,
          pendingAdvance := true } 500).1.pendingAdvance = false ∧
    deferredAdvance ["A", "B", "C"]
        (stepStatesCompute exampleSteps () ["A"] "A")
        { currentStepId := "A", manuallyCompleted := ["A"], lastNavAt := 0,
          pendingAdvance := true } 500 =
      ({ currentStepId := "B", manuallyCompleted := ["A"], lastNavAt := 500,
         pendingAdvance := false }, [Event.stepChanged "B"]) := by
  have h := deferredAdvance_resolution ["A", "B", "C"]
    (stepStatesCompute exampleSteps () ["A"] "A")
    { currentStepId := "A", manuallyCompleted := ["A"], lastNavAt := 0,
      pendingAdvance := true } 500 rfl
  exact ⟨h.1, by decide⟩

theorem stepStatesCompute_eq {γ : Type} (steps : List (Step γ)) (ctx : γ)
    (mc : List String) (cur : String) :
    stepStatesCompute steps ctx mc cur =
      activeOverride
        (preOverrideStates (steps.map (fun s => computeStep s ctx)) mc cur)
        cur := rfl

theorem locked_full_to_pre (m : StateMap) (cur x : String)
    (hx : (getKey m x).isSome)
    (hlocked : getKey (activeOverride m cur) x = some .locked) :
    getKey m x = some .locked := by
  by_cases hxc : x = cur
  · subst hxc
    rw [activeOverride_getKey_cur] at hlocked
    cases hg : getKey m x with
    | none =>
      rw [hg] at hx
      cases hx
    | some s =>
      rw [hg] at hlocked
      simp only [Option.elim_some, Option.some_inj] at hlocked
      by_cases hs : s = Status.locked
      · rw [hs]
      · rw [if_neg hs] at hlocked
        cases hlocked
  · rw [activeOverride_getKey_ne _ _ _ hxc] at hlocked
    exact hlocked

theorem locked_pre_to_full (m : StateMap) (cur x : String)
    (hpre : getKey m x = some .locked) :
    getKey (activeOverride m cur) x = some .locked := by
  by_cases hxc : x = cur
  · subst hxc
    rw [activeOverride_getKey_cur, hpre]
    rfl
  · rw [activeOverride_getKey_ne _ _ _ hxc]
    exact hpre

/-- C2 counterexample: with steps `A` (invalid), `B` (invalid), `C` (valid)
and current step `A`, step `B` (index 1) is `locked` while the later step `C`
(index 2) is `available` — the second forEach skips steps that already hold a
status, so a valid step after the frontier is never locked.  This falsifies
frontier monotonicity as stated. -/
theorem frontier_monotonicity_counterexample :
    (exampleStepsGap.map (fun st => st.id) = ["A", "B", "C"]) ∧
    getKey (stepStatesCompute exampleStepsGap () [] "A") "B" = some .locked ∧
    getKey (stepStatesCompute exampleStepsGap () [] "A") "C" =
      some .available := by
  exact ⟨rfl, by decide, by decide⟩

/-- C2 (amended): frontier monotonicity restricted to non-available steps —
if the step at index `i` is `locked`, then every step at a later index whose
own gate fails (validator `false` after fault isolation and not manually
completed) is `locked` as well.  Available steps after a locked one keep
status `available` (see the counterexample), which is the only change the code
forces. -/
theorem frontier_monotonicity_amended {γ : Type} (steps : List (Step γ))
    (ctx : γ) (mc : List String) (cur : String)
    (hnd : (steps.map (fun st => st.id)).Nodup)
    (i j : Nat) (hi : i < steps.length) (hj : j < steps.length) (hij : i < j)
    (hlocked : getKey (stepStatesCompute steps ctx mc cur) (steps[i].id) =
      some .locked)
    (hval : callValidate steps[j] ctx = false)
    (hman : steps[j].id ∉ mc) :
    getKey (stepStatesCompute steps ctx mc cur) (steps[j].id) =
      some .locked := by
  have hnd2 : ((steps.map (fun s => computeStep s ctx)).map (·.id)).Nodup := by
    rw [computed_ids]
    exact hnd
  have hki : (steps.map (fun s => computeStep s ctx))[i]? =
      some (computeStep steps[i] ctx) := by
    rw [List.getElem?_map, List.getElem?_eq_getElem hi]
    rfl
  have hkj : (steps.map (fun s => computeStep s ctx))[j]? =
      some (computeStep steps[j] ctx) := by
    rw [List.getElem?_map, List.getElem?_eq_getElem hj]
    rfl
  have chari := preOverride_getKey_at mc (steps.map (fun s => computeStep s ctx))
    cur hnd2 i (computeStep steps[i] ctx) hki
  have charj := preOverride_getKey_at mc (steps.map (fun s => computeStep s ctx))
    cur hnd2 j (computeStep steps[j] ctx) hkj
  rw [stepStatesCompute_eq] at hlocked
  have hprei : getKey (preOverrideStates
      (steps.map (fun s => computeStep s ctx)) mc cur) (steps[i].id) =
      some .locked :=
    locked_full_to_pre _ cur _ (by rw [show (computeStep steps[i] ctx).id =
      steps[i].id from rfl] at chari; rw [chari]; rfl) hlocked
  have hexpri := Option.some_inj.mp ((chari.symm).trans hprei)
  have havi : availC mc (computeStep steps[i] ctx) = false := by
    by_contra hcon
    rw [Bool.not_eq_false] at hcon
    rw [if_pos hcon] at hexpri
    split at hexpri <;> cases hexpri
  have hFi : firstNonAvail mc (steps.map (fun s => computeStep s ctx)) ≠
      some i := by
    intro hcon
    rw [if_neg (by rw [havi]; intro hcc; cases hcc), if_pos hcon] at hexpri
    split at hexpri <;> cases hexpri
  obtain ⟨f, hfi, hF⟩ := firstNonAvail_le_of_not_avail mc
    (steps.map (fun s => computeStep s ctx)) i (computeStep steps[i] ctx)
    hki havi
  have hflt : f < i := by
    rcases Nat.lt_or_ge f i with h | h
    · exact h
    · exfalso
      have : f = i := by omega
      rw [this] at hF
      exact hFi hF
  have havj : availC mc (computeStep steps[j] ctx) = false := by
    simp [availC, computeStep, hval, hman]
  have hprej : getKey (preOverrideStates
      (steps.map (fun s => computeStep s ctx)) mc cur) (steps[j].id) =
      some .locked := by
    rw [show steps[j].id = (computeStep steps[j] ctx).id from rfl, charj,
      if_neg (by rw [havj]; intro hcc; cases hcc),
      if_neg (show ¬ (firstNonAvail mc (steps.map (fun s => computeStep s ctx)) =
          some j) from by
        rw [hF]
        intro hcon
        have hfj : f = j := by simpa using hcon
        omega)]
  rw [stepStatesCompute_eq]
  exact locked_pre_to_full _ cur _ hprej

/-- C2 witness: in the four-step variant (`A`, `B` invalid; `C` valid; `D`
invalid) step `B` is locked, and the amended monotonicity yields that the
non-available later step `D` is locked too. -/
theorem frontier_monotonicity_amended_witness :
    getKey (stepStatesCompute exampleStepsGap4 () [] "A") "D" =
      some .locked := by
  have h := frontier_monotonicity_amended exampleStepsGap4 () [] "A"
    (by decide) 1 3 (by decide) (by decide) (by decide) (by decide)
    (by decide) (by decide)
  exact h

theorem length_le_one_of_nodup_const (l : List String) (a : String)
    (hnd : l.Nodup) (hall : ∀ x ∈ l, x = a) : l.length ≤ 1 := by
  match l, hnd, hall with
  | [], _, _ => simp
  | [x], _, _ => simp
  | x :: y :: t, hnd, hall =>
    exfalso
    rw [List.nodup_cons] at hnd
    have hx := hall x (List.mem_cons_self _ _)
    have hy := hall y (List.mem_cons_of_mem _ (List.mem_cons_self _ _))
    have hxy : x = y := hx.trans hy.symm
    exact hnd.1 (by rw [hxy]; exact List.mem_cons_self _ _)

/-- C4 (P1, single active): every `active` entry of the computed map is the
entry `(currentStepId, active)`; the map holds at most one `active` entry; and
the current step's entry is `active` exactly when its pre-override status is
defined and not `locked`. -/
theorem single_active {γ : Type} (steps : List (Step γ)) (ctx : γ)
    (mc : List String) (cur : String) :
    (∀ p ∈ stepStatesCompute steps ctx mc cur, p.2 = Status.active →
      p = (cur, Status.active)) ∧
    ((stepStatesCompute steps ctx mc cur).filter
      (fun p => p.2 == Status.active)).length ≤ 1 ∧
    (getKey (stepStatesCompute steps ctx mc cur) cur = some .active ↔
      ∃ st, getKey (preOverrideStates
          (steps.map (fun s => computeStep s ctx)) mc cur) cur = some st ∧
        st ≠ Status.locked) := by
  have hpre : ∀ p ∈ preOverrideStates (steps.map (fun s => computeStep s ctx))
      mc cur, p.2 ≠ Status.active := by
    intro p hp
    rw [preOverrideStates_eq] at hp
    rcases mem_completedLoop _ _ _ _ _ hp with hp2 | ⟨-, hval⟩
    · by_cases hf : (markAvailableLoop mc
          (steps.map (fun s => computeStep s ctx)) 0 [] (-1)).2 ≠ -1
      · rw [if_pos hf] at hp2
        rcases mem_lockLoop _ _ _ _ _ hp2 with hp3 | ⟨-, hval⟩
        · rcases mem_markAvailableLoop _ _ _ _ _ _ hp3 with hp4 | ⟨-, hval⟩
          · cases hp4
          · rw [hval]
            intro hcc
            cases hcc
        · rcases hval with h | h | h <;> (rw [h]; intro hcc; cases hcc)
      · rw [if_neg hf] at hp2
        rcases mem_markAvailableLoop _ _ _ _ _ _ hp2 with hp4 | ⟨-, hval⟩
        · cases hp4
        · rw [hval]
          intro hcc
          cases hcc
    · rw [hval]
      intro hcc
      cases hcc
  have h1 : ∀ p ∈ stepStatesCompute steps ctx mc cur, p.2 = Status.active →
      p = (cur, Status.active) := by
    intro p hp ha
    rw [stepStatesCompute_eq] at hp
    rcases mem_activeOverride _ _ _ hp with hp2 | ⟨hcur2, hval⟩
    · exact absurd ha (hpre p hp2)
    · rcases p with ⟨a, b⟩
      dsimp at hcur2 ha
      rw [hcur2, ha]
  refine ⟨h1, ?_, ?_⟩
  · have hnd := nodup_keys_stepStates steps ctx mc cur
    have hsub : (((stepStatesCompute steps ctx mc cur).filter
        (fun p => p.2 == Status.active)).map (·.1)).Sublist
        (keys (stepStatesCompute steps ctx mc cur)) :=
      List.Sublist.map _ (List.filter_sublist _)
    have hndlf := List.Nodup.sublist hsub hnd
    have hall : ∀ x ∈ ((stepStatesCompute steps ctx mc cur).filter
        (fun p => p.2 == Status.active)).map (·.1), x = cur := by
      intro x hx
      rw [List.mem_map] at hx
      obtain ⟨p, hpf, hpx⟩ := hx
      rw [List.mem_filter] at hpf
      have hact : p.2 = Status.active := by simpa using hpf.2
      have hpc := h1 p hpf.1 hact
      rw [← hpx, hpc]
    have hlen := length_le_one_of_nodup_const _ cur hndlf hall
    rw [List.length_map] at hlen
    exact hlen
  · rw [stepStatesCompute_eq, activeOverride_getKey_cur]
    cases hpc : getKey (preOverrideStates
        (steps.map (fun s => computeStep s ctx)) mc cur) cur with
    | none => simp
    | some st =>
      simp only [Option.elim_some]
      constructor
      · intro hact
        have hh : (if st = Status.locked then Status.locked else Status.active) =
            Status.active := Option.some_inj.mp hact
        by_cases hs : st = Status.locked
        · rw [if_pos hs] at hh
          cases hh
        · exact ⟨st, rfl, hs⟩
      · rintro ⟨st2, hst2, hne⟩
        have hse : st = st2 := Option.some_inj.mp hst2
        rw [if_neg (by rw [hse]; exact hne)]

/-- C4 witness: on the reference scenario the current step `A` is `active`,
so by the characterization its pre-override status is defined and not
`locked`. -/
theorem single_active_witness :
    ∃ st, getKey (preOverrideStates
        (exampleSteps.map (fun s => computeStep s ())) [] "A") "A" =
      some st ∧ st ≠ Status.locked :=
  (single_active exampleSteps () [] "A").2.2.mp (by decide)

theorem resetToStep_eq (stepIds : List String) (s : Session) (stepId : String) :
    resetToStep stepIds s stepId =
      if findIndexId stepIds stepId < 0 then (s, [])
      else
        ({ s with manuallyCompleted := s.manuallyCompleted.filter (fun id => decide (id ∉ stepIds.drop (findIndexId stepIds stepId).toNat)), currentStepId := stepId },
         [Event.stepChanged stepId]) := rfl

theorem navigateToStep_good (m : StateMap) (s : Session) (now : Int)
    (stepId : String) (ids : List String) (hs : goodSession ids s)
    (hid : stepId ∈ ids) : goodSession ids (navigateToStep m s now stepId).1 := by
  rw [navigateToStep_eq]
  by_cases h1 : getKey m stepId = some .locked
  · rw [if_pos h1]
    exact hs
  · rw [if_neg h1]
    by_cases h2 : canNavigateNow s now = false
    · rw [if_pos h2]
      exact hs
    · rw [if_neg h2]
      exact ⟨hid, hs.2⟩

theorem handleStepClick_good (s : Session) (now : Int) (stepId : String)
    (state : Option Status) (ids : List String) (hs : goodSession ids s)
    (hid : stepId ∈ ids) :
    goodSession ids (handleStepClick s now stepId state).1 := by
  unfold handleStepClick
  by_cases h1 : state = some .locked
  · rw [if_pos h1]
    exact hs
  · rw [if_neg h1]
    by_cases h2 : canNavigateNow s now = false
    · rw [if_pos h2]
      exact hs
    · rw [if_neg h2]
      exact ⟨hid, hs.2⟩

theorem completeStep_good (stepIds : List String) (s : Session)
    (ids : List String) (hs : goodSession ids s) :
    goodSession ids (completeStep stepIds s).1 := by
  have hgood : goodSession ids { s with
      manuallyCompleted := setAdd s.manuallyCompleted s.currentStepId,
      pendingAdvance := true } := by
    refine ⟨hs.1, fun x hx => ?_⟩
    rcases mem_setAdd _ _ _ hx with h | h
    · exact hs.2 x h
    · rw [h]
      exact hs.1
  rw [completeStep_eq]
  by_cases h1 : findIndexId stepIds s.currentStepId = (stepIds.length : Int) - 1
  · rw [if_pos h1]
    exact hgood
  · rw [if_neg h1]
    exact hgood

theorem resetToStep_good (ids : List String) (s : Session) (stepId : String)
    (hs : goodSession ids s) : goodSession ids (resetToStep ids s stepId).1 := by
  rw [resetToStep_eq]
  by_cases h1 : findIndexId ids stepId < 0
  · rw [if_pos h1]
    exact hs
  · rw [if_neg h1]
    refine ⟨findIndexId_mem_of_nonneg ids stepId (by omega), fun x hx => ?_⟩
    rw [List.mem_filter] at hx
    exact hs.2 x hx.1

theorem deferredAdvance_good (ids : List String) (m : StateMap) (s : Session)
    (now : Int) (hs : goodSession ids s) :
    goodSession ids (deferredAdvance ids m s now).1 := by
  rw [deferredAdvance_eq]
  by_cases h1 : s.pendingAdvance = false
  · rw [if_pos h1]
    exact hs
  · rw [if_neg h1]
    cases hf : findNextUnlocked m (findIndexId ids s.currentStepId) ids 0 with
    | none => exact ⟨hs.1, hs.2⟩
    | some nid => exact ⟨findNextUnlocked_mem _ _ _ _ _ hf, hs.2⟩

theorem applyOp_good {γ : Type} (steps : List (Step γ)) (s : Session)
    (op : Op γ) (hs : goodSession (steps.map (fun st => st.id)) s)
    (hop : opConfigured (steps.map (fun st => st.id)) op) :
    goodSession (steps.map (fun st => st.id)) (applyOp steps s op).1 := by
  cases op with
  | navigateTo ctx now stepId =>
    exact navigateToStep_good _ _ _ _ _ hs hop
  | click ctx now stepIndex =>
    simp only [applyOp]
    cases hk : (steps.map (fun st => st.id)).get? stepIndex with
    | none => exact hs
    | some id => exact handleStepClick_good _ _ _ _ _ hs (List.get?_mem hk)
  | complete => exact completeStep_good _ _ _ hs
  | reset stepId => exact resetToStep_good _ _ _ hs
  | settle ctx now => exact deferredAdvance_good _ _ _ _ hs
  | updateCtx => exact hs

theorem runOps_good {γ : Type} (steps : List (Step γ)) (ops : List (Op γ))
    (s : Session) (hs : goodSession (steps.map (fun st => st.id)) s)
    (hops : ∀ op ∈ ops, opConfigured (steps.map (fun st => st.id)) op) :
    goodSession (steps.map (fun st => st.id)) (runOps steps s ops) := by
  induction ops generalizing s with
  | nil => exact hs
  | cons op rest ih =>
    exact ih _ (applyOp_good steps s op hs (hops op (List.mem_cons_self _ _)))
      (fun o ho => hops o (List.mem_cons_of_mem _ ho))

theorem keys_stepStates_iff {γ : Type} (steps : List (Step γ)) (ctx : γ)
    (mc : List String) (cur : String)
    (hnd : (steps.map (fun st => st.id)).Nodup)
    (hcur : cur ∈ steps.map (fun st => st.id)) (x : String) :
    x ∈ keys (stepStatesCompute steps ctx mc cur) ↔
      x ∈ steps.map (fun st => st.id) := by
  constructor
  · intro hx
    rw [keys, List.mem_map] at hx
    obtain ⟨p, hp, hpx⟩ := hx
    rw [stepStatesCompute_eq] at hp
    rcases mem_activeOverride _ _ _ hp with hp2 | ⟨hpc, -⟩
    · rw [preOverrideStates_eq] at hp2
      rcases mem_completedLoop _ _ _ _ _ hp2 with hp3 | ⟨hmem, -⟩
      · by_cases hf : (markAvailableLoop mc
            (steps.map (fun s => computeStep s ctx)) 0 [] (-1)).2 ≠ -1
        · rw [if_pos hf] at hp3
          rcases mem_lockLoop _ _ _ _ _ hp3 with hp4 | ⟨hmem, -⟩
          · rcases mem_markAvailableLoop _ _ _ _ _ _ hp4 with hp5 | ⟨hmem, -⟩
            · cases hp5
            · rw [computed_ids] at hmem
              rw [← hpx]
              exact hmem
          · rw [computed_ids] at hmem
            rw [← hpx]
            exact hmem
        · rw [if_neg hf] at hp3
          rcases mem_markAvailableLoop _ _ _ _ _ _ hp3 with hp5 | ⟨hmem, -⟩
          · cases hp5
          · rw [computed_ids] at hmem
            rw [← hpx]
            exact hmem
      · rw [computed_ids] at hmem
        rw [← hpx]
        exact hmem
    · rw [← hpx, hpc]
      exact hcur
  · intro hx
    obtain ⟨k, hk⟩ := List.mem_iff_getElem?.mp hx
    have hk2 : ((steps.map (fun s => computeStep s ctx)).map (·.id))[k]? =
        some x := by
      rw [computed_ids]
      exact hk
    rw [List.getElem?_map] at hk2
    obtain ⟨c, hc, hcid⟩ := Option.map_eq_some'.mp hk2
    have hnd2 : ((steps.map (fun s => computeStep s ctx)).map (·.id)).Nodup := by
      rw [computed_ids]
      exact hnd
    have hchar := preOverride_getKey_at mc
      (steps.map (fun s => computeStep s ctx)) cur hnd2 k c hc
    rw [← getKey_isSome_iff_mem_keys, stepStatesCompute_eq]
    by_cases hxc : x = cur
    · rw [hxc, activeOverride_getKey_cur]
      rfl
    · rw [activeOverride_getKey_ne _ _ _ hxc, ← hcid, hchar]
      rfl

/-- C3 counterexample: from the initial session, the public call sequence
`navigateTo("X")`, `completeStep()` is accepted (an unknown id passes the
`locked` check), after which `manuallyCompleted = {"X"}` is *not* a subset of
the configured ids `{A,B,C}` and the derived status map holds four entries for
three configured steps (an extra `"X" → locked` entry). -/
theorem session_invariant_counterexample :
    (runOps exampleSteps (initSession "A")
        [Op.navigateTo () 1000 "X", Op.complete]).manuallyCompleted = ["X"] ∧
    "X" ∉ exampleSteps.map (fun st => st.id) ∧
    keys (stepStatesCompute exampleSteps ()
        (runOps exampleSteps (initSession "A")
          [Op.navigateTo () 1000 "X", Op.complete]).manuallyCompleted
        (runOps exampleSteps (initSession "A")
          [Op.navigateTo () 1000 "X", Op.complete]).currentStepId) =
      ["A", "B", "C", "X"] ∧
    exampleSteps.length = 3 := by
  exact ⟨by decide, by decide, by decide, rfl⟩

/-- C3 (amended): in every session state reachable through the public
operations *whose navigateTo targets are configured step ids* (clicks come
from rendered buttons and are configured by construction), `manuallyCompleted`
is a subset of the configured ids, and the derived status map has exactly one
entry per configured step: its key list holds exactly the configured ids
(membership both ways) without duplicates.  An unknown navigateTo target
breaks both halves (see the counterexample). -/
theorem session_invariant_amended {γ : Type} (steps : List (Step γ))
    (hne : steps ≠ []) (hnd : (steps.map (fun st => st.id)).Nodup)
    (ops : List (Op γ))
    (hops : ∀ op ∈ ops, opConfigured (steps.map (fun st => st.id)) op)
    (ctx : γ) :
    (∀ x ∈ (runOps steps (initSession (steps.head hne).id) ops).manuallyCompleted,
      x ∈ steps.map (fun st => st.id)) ∧
    (∀ x, x ∈ keys (stepStatesCompute steps ctx
        (runOps steps (initSession (steps.head hne).id) ops).manuallyCompleted
        (runOps steps (initSession (steps.head hne).id) ops).currentStepId) ↔
      x ∈ steps.map (fun st => st.id)) ∧
    (keys (stepStatesCompute steps ctx
        (runOps steps (initSession (steps.head hne).id) ops).manuallyCompleted
        (runOps steps (initSession (steps.head hne).id) ops).currentStepId)).Nodup := by
  have hinit : goodSession (steps.map (fun st => st.id))
      (initSession (steps.head hne).id) :=
    ⟨List.mem_map_of_mem _ (List.head_mem hne),
     fun x hx => absurd hx (List.not_mem_nil x)⟩
  have hgood := runOps_good steps ops _ hinit hops
  exact ⟨hgood.2,
    fun x => keys_stepStates_iff steps ctx _ _ hnd hgood.1 x,
    nodup_keys_stepStates steps ctx _ _⟩

/-- C3 witness: with configured navigation targets only
(`navigateTo "B"` after cooldown, then `completeStep`), the key `"B"` is in
the derived map of the reachable state. -/
theorem session_invariant_amended_witness :
    "B" ∈ keys (stepStatesCompute exampleSteps ()
        (runOps exampleSteps (initSession "A")
          [Op.navigateTo () 1000 "B", Op.complete]).manuallyCompleted
        (runOps exampleSteps (initSession "A")
          [Op.navigateTo () 1000 "B", Op.complete]).currentStepId) := by
  have h := session_invariant_amended exampleSteps
    (by intro hcon; rw [exampleSteps] at hcon; exact List.noConfusion hcon)
    (by decide) [Op.navigateTo () 1000 "B", Op.complete]
    (by intro op hop
        rcases List.mem_cons.mp hop with h | h
        · rw [h]; exact (by decide : ("B" : String) ∈
            exampleSteps.map (fun st => st.id))
        · rcases List.mem_cons.mp h with h2 | h2
          · rw [h2]; exact trivial
          · cases h2) ()
  exact (h.2.1 "B").mpr (by decide)

end WorkflowStepper

